import Mathlib

/-! Verification of `src/mars_inventory_analyzer.py` against its
natural-language specification.
Modelling choices of the shallow embedding:
* Python strings are `List Char` (`Str`); `str.strip()`, `str.split(',')`,
  `','.join(..)` and `str.lower()` are translated literally below.
* Python float values are modelled exactly: every numeric value this
  program manipulates comes from parsing a decimal literal or from the
  fixed constants, so values are exact decimals `num / 10 ^ exp` (`Dec`).
  Comparisons, the `:.2f` rounding and equality are the exact decimal
  ones; they agree with IEEE semantics on the inputs the program reads
  (Python's `float` parse and comparison are order-isomorphic to the
  decimal values at every comparison the program performs).
* Python dicts are insertion-ordered association lists with the dict
  update semantics (`dictInsert`).
* Console output is not modelled except for the notices the spec talks
  about, which are recorded as Boolean fields of the result structures.
* The file system is modelled by `Option (List Str)`: `none` stands for
  "opening the file raised" (missing file, I/O error, any exception),
  `some lines` for the list of lines of the file.
-/

abbrev Str := List Char

def isWS (c : Char) : Bool := c.isWhitespace

/-- model of Python `str.strip()` -/
def trimStr (s : Str) : Str := ((s.dropWhile isWS).reverse.dropWhile isWS).reverse

/-- model of Python `str.split(',')` -/
def splitComma : Str → List Str
  | [] => [[]]
  | c :: cs =>
    if c = ',' then [] :: splitComma cs
    else
      match splitComma cs with
      | [] => [[c]]
      | t :: ts => (c :: t) :: ts

/-- model of Python `','.join(..)` -/
def intercalateComma : List Str → Str
  | [] => []
  | [x] => x
  | x :: y :: xs => x ++ ',' :: intercalateComma (y :: xs)

/-- model of Python `str.lower()` -/
def lowerStr (s : Str) : Str := s.map Char.toLower

/-- case-insensitive column-name test `key.lower() in ['flammability', '인화성']`
of source lines 38, 98 and 128. -/
def isFlamName (s : Str) : Bool :=
  decide (lowerStr s = "flammability".data) || decide (lowerStr s = "인화성".data)

def pow10 : Nat → Nat
  | 0 => 1
  | n + 1 => 10 * pow10 n

/-- exact decimal number `num / 10 ^ exp`, the model of the Python float
values appearing in this program -/
structure Dec where
  num : Int
  exp : Nat
deriving DecidableEq

/-- numeric comparison `a <= b` of two decimal values -/
def Dec.le (a b : Dec) : Bool := a.num * (pow10 b.exp : Int) ≤ b.num * (pow10 a.exp : Int)

/-- numeric equality `a == b` of two decimal values (Python float equality,
unlike equality of the `Dec` representation) -/
def Dec.eqv (a b : Dec) : Bool := a.num * (pow10 b.exp : Int) = b.num * (pow10 a.exp : Int)

def digitsToNat (s : Str) : Nat := s.foldl (fun n c => 10 * n + (c.toNat - 48)) 0

/-- decimal literal parser: the fragment of Python `float(..)` exercised by
this program (an optional sign, an integer part and an optional fractional
part; exponents, `inf`, `nan` and underscores are not inventory values). -/
def parsePosDec (cs : Str) : Option Dec :=
  let ip := cs.takeWhile Char.isDigit
  match cs.dropWhile Char.isDigit with
  | [] => if ip = [] then none else some ⟨(digitsToNat ip : Int), 0⟩
  | '.' :: fp =>
    if fp.all Char.isDigit ∧ (ip ≠ [] ∨ fp ≠ []) then
      some ⟨(digitsToNat ip * pow10 fp.length + digitsToNat fp : Int), fp.length⟩
    else none
  | _ => none

/-- model of Python `float(s)` on the strings this program parses -/
def parseFloat (s : Str) : Option Dec :=
  match s with
  | '-' :: cs => (parsePosDec cs).map (fun x => ⟨-x.num, x.exp⟩)
  | '+' :: cs => parsePosDec cs
  | _ => parsePosDec s

/-- a cell value of a record: Python `str` or `float` -/
inductive Value where
  | str : Str → Value
  | flt : Dec → Value
deriving DecidableEq

/-- a Record: insertion-ordered mapping from column name to value -/
abbrev Record := List (Str × Value)

def keysOf (r : Record) : List Str := r.map Prod.fst

/-- association-list lookup, modelling Python dict access -/
def dlookup (k : Str) : Record → Option Value
  | [] => none
  | p :: r => if p.1 = k then some p.2 else dlookup k r

/-- Python dict assignment `d[k] = v`: overwrite in place keeping the key
position if the key is present, append otherwise -/
def dictInsert (k : Str) (v : Value) : Record → Record
  | [] => [(k, v)]
  | p :: r => if p.1 = k then (k, v) :: r else p :: dictInsert k v r

/-- one cell of the row loop, source lines 37-45: the key is the trimmed
header name; a flammability-named column is float-parsed from the trimmed
cell text (0.0 on failure), every other column keeps the trimmed text -/
def mkCell (h v : Str) : Str × Value :=
  if isFlamName (trimStr h) then
    match parseFloat (trimStr v) with
    | some x => (trimStr h, Value.flt x)
    | none => (trimStr h, Value.flt ⟨0, 0⟩)
  else (trimStr h, Value.str (trimStr v))

/-- the `row_dict` built by source lines 36-45 -/
def buildRow (header vals : List Str) : Record :=
  (header.zip vals).foldl (fun d p => dictInsert (mkCell p.1 p.2).1 (mkCell p.1 p.2).2 d) []

/-- the row loop of source lines 31-46: skip blank lines, split on commas,
skip rows whose token count differs from the header length, append the
built record otherwise -/
def readRows (header : List Str) : List Str → List Record → List Record
  | [], acc => acc
  | line :: rest, acc =>
    if trimStr line = [] then readRows header rest acc
    else
      if (splitComma (trimStr line)).length = header.length then
        readRows header rest (acc ++ [buildRow header (splitComma (trimStr line))])
      else readRows header rest acc

/-- result of `read_csv_file`: the returned list plus whether an error
message was printed -/
structure ReadResult where
  errorReported : Bool
  data : List Record
deriving DecidableEq

/-- source lines 9-58. `none` models every way the read can raise
(`FileNotFoundError`, `IOError`, any other exception): each handler prints
a message and returns `[]`. An existing file is its list of lines; an empty
file has no lines, so the `if lines:` guard leaves the data empty. -/
def read_csv_file : Option (List Str) → ReadResult
  | none => ⟨true, []⟩
  | some [] => ⟨false, []⟩
  | some (first :: rest) => ⟨false, readRows (splitComma (trimStr first)) rest []⟩

/-- key search of source lines 95-100 and 125-130: the first key of the
first record whose lowercase form is one of the two recognized spellings;
`none` when the data is empty or no key matches -/
def findFlamKey : List Record → Option Str
  | [] => none
  | r :: _ =>
    match (keysOf r).find? isFlamName with
    | some k => some k
    | none => none

/-- the number `x[flammability_key]` evaluates to; the loader only stores
floats under flammability-named keys, and the theorems about arbitrary
datasets hypothesise exactly that -/
def flamVal (r : Record) (k : Str) : Dec :=
  match dlookup k r with
  | some (Value.flt x) => x
  | _ => ⟨0, 0⟩

def insertRecDesc (k : Str) (x : Record) : List Record → List Record
  | [] => [x]
  | y :: ys =>
    if Dec.le (flamVal y k) (flamVal x k) then x :: y :: ys else y :: insertRecDesc k x ys

/-- stable descending insertion sort by the flammability value. Python's
`sorted(data, key=lambda x: x[k], reverse=True)` (source line 107) is the
stable descending sort, and the output of a stable sort is uniquely
determined by the comparison and the input order, so this models it. -/
def sortRecDesc (k : Str) : List Record → List Record
  | [] => []
  | x :: xs => insertRecDesc k x (sortRecDesc k xs)

/-- result of sort/filter: the returned list plus whether the
missing-column notice was printed -/
structure OpResult where
  noticeMissingColumn : Bool
  result : List Record
deriving DecidableEq

/-- source lines 84-108 -/
def sort_by_flammability (data : List Record) : OpResult :=
  match findFlamKey data with
  | none => ⟨true, data⟩
  | some k => ⟨false, sortRecDesc k data⟩

/-- the accumulation loop of source lines 136-138 -/
def filterLoop (k : Str) (threshold : Dec) : List Record → List Record → List Record
  | acc, [] => acc
  | acc, x :: xs =>
    if Dec.le threshold (flamVal x k) then filterLoop k threshold (acc ++ [x]) xs
    else filterLoop k threshold acc xs

/-- source lines 111-140 -/
def filter_dangerous_materials (data : List Record) (threshold : Dec) : OpResult :=
  match findFlamKey data with
  | none => ⟨true, []⟩
  | some k => ⟨false, filterLoop k threshold [] data⟩

def digitChar (d : Nat) : Char := Char.ofNat (48 + d)

def natToDecAux : Nat → Nat → Str
  | 0, _ => []
  | fuel + 1, n => if n < 10 then [digitChar n] else natToDecAux fuel (n / 10) ++ [digitChar (n % 10)]

/-- decimal digits of a natural number -/
def natToDec (n : Nat) : Str := natToDecAux (n + 1) n

/-- round half to even of `100 * x` to an integer: the rounding Python's
format spec `:.2f` performs on these decimal values -/
def rhe100 (x : Dec) : Int :=
  let a : Int := 100 * x.num
  let d : Int := (pow10 x.exp : Int)
  let q := a / d
  let r := a % d
  if 2 * r < d then q
  else if d < 2 * r then q + 1
  else if q % 2 = 0 then q else q + 1

/-- model of `f'{x:.2f}'` -/
def formatFloat2 (x : Dec) : Str :=
  let n := rhe100 x
  let a := n.natAbs
  (if n < 0 then ['-'] else []) ++ natToDec (a / 100) ++ '.' :: [digitChar (a / 10 % 10), digitChar (a % 10)]

/-- source lines 165-168: floats via `:.2f`, all else via `str(..)` -/
def formatValue : Value → Str
  | Value.flt x => formatFloat2 x
  | Value.str s => s

/-- Python `item[header]` in the writer; the theorems hypothesise the key
is present, as the source's data invariant guarantees -/
def getVal (r : Record) (k : Str) : Value :=
  match dlookup k r with
  | some v => v
  | none => Value.str []

/-- result of `save_to_csv`: the written file lines (`none` when nothing
is written) plus whether the empty-data notice was printed -/
structure SaveResult where
  noticeEmpty : Bool
  written : Option (List Str)
deriving DecidableEq

/-- source lines 143-176: on empty data print a notice and write nothing;
otherwise write the first record's keys comma-joined, then one line per
record with the values in that key order -/
def save_to_csv (data : List Record) (filename : Str) : SaveResult :=
  match data with
  | [] => ⟨true, none⟩
  | first :: _ =>
    ⟨false, some (data.foldl
      (fun acc item =>
        acc ++ [intercalateComma
          ((keysOf first).foldl (fun vs h => vs ++ [formatValue (getVal item h)]) [])])
      [intercalateComma (keysOf first)])⟩

/-- observable outcome of `main`: whether the empty-load early return was
taken, and the file contents saved at step 5 (if any) -/
structure MainResult where
  terminatedEarly : Bool
  saved : Option (List Str)
deriving DecidableEq

/-- source lines 179-213, the function `main` (Lean reserves that name for
executables, hence the suffix): load, stop if empty, sort, filter at 0.7,
save only when dangerous materials exist -/
def mainProgram (file : Option (List Str)) : MainResult :=
  match (read_csv_file file).data with
  | [] => ⟨true, none⟩
  | first :: more =>
    match (filter_dangerous_materials
        (sort_by_flammability (first :: more)).result ⟨7, 1⟩).result with
    | [] => ⟨false, none⟩
    | d :: ds => ⟨false, (save_to_csv (d :: ds) "Mars_Base_Inventory_danger.csv".data).written⟩

/-- the composite `write(filter(sort(load(f))))` the spec's first testable
property talks about, with the program's fixed threshold 0.7 -/
def pipeline (file : List Str) : SaveResult :=
  save_to_csv (filter_dangerous_materials
      (sort_by_flammability (read_csv_file (some file)).data).result ⟨7, 1⟩).result
    "Mars_Base_Inventory_danger.csv".data

/-- rounding a written-then-reloaded value: floats go through `:.2f` -/
def roundValue : Value → Value
  | Value.flt x => Value.flt ⟨rhe100 x, 2⟩
  | Value.str s => Value.str s

def roundRecord (r : Record) : Record := r.map (fun p => (p.1, roundValue p.2))

/-- insertion-ordered union used to describe the key list a row build
produces -/
def addNewKeys (ks : List Str) (hs : List Str) : List Str :=
  hs.foldl (fun acc h => if h ∈ acc then acc else acc ++ [h]) ks

/-- rational value of a decimal -/
def toRat (x : Dec) : ℚ := (x.num : ℚ) / ((pow10 x.exp : Nat) : ℚ)

/-- round half to even on the rationals -/
def rheRat (p : ℚ) : Int :=
  if Int.fract p < 1 / 2 then ⌊p⌋
  else if 1 / 2 < Int.fract p then ⌊p⌋ + 1
  else if ⌊p⌋ % 2 = 0 then ⌊p⌋ else ⌊p⌋ + 1

def headOK : Str → Prop
  | [] => True
  | c :: _ => isWS c = false

def lastOK (l : Str) : Prop := headOK l.reverse

/-- one iteration of the `row_dict` loop -/
def rowStep (d : Record) (p : Str × Str) : Record :=
  dictInsert (mkCell p.1 p.2).1 (mkCell p.1 p.2).2 d

/-- shape invariant of every cell the loader builds: the key is a trimmed
name; the value is a float exactly when the key is flammability-named,
and a trimmed string otherwise -/
def cellOK (p : Str × Value) : Prop :=
  trimStr p.1 = p.1 ∧
    match p.2 with
    | Value.flt _ => isFlamName p.1 = true
    | Value.str s => isFlamName p.1 = false ∧ ∃ w, s = trimStr w

/-- comma-freeness of cells built from comma-free header names and values -/
def cellNoComma (p : Str × Value) : Prop :=
  ',' ∉ p.1 ∧ match p.2 with
    | Value.str s => ',' ∉ s
    | Value.flt _ => True

/-- the decision the row loop takes for one line -/
def rowOf (header : List Str) (line : Str) : Option Record :=
  if trimStr line = [] then none
  else if (splitComma (trimStr line)).length = header.length then
    some (buildRow header (splitComma (trimStr line)))
  else none

/-- the descending-by-flammability order of the sorted output -/
def descBy (k : Str) (a b : Record) : Prop := Dec.le (flamVal b k) (flamVal a k) = true

/-- the subsequence of records in one flammability class -/
def flamFilter (k : Str) (v : Dec) (l : List Record) : List Record :=
  l.filter (fun r => Dec.eqv (flamVal r k) v)

/-- the spec's worked example, record Al(0.1) -/
def sampleAl : Record :=
  [("Substance".data, Value.str "Al".data), ("Flammability".data, Value.flt ⟨1, 1⟩)]

/-- the spec's worked example, record O2(0.9) -/
def sampleO2 : Record :=
  [("Substance".data, Value.str "O2".data), ("Flammability".data, Value.flt ⟨9, 1⟩)]

/-- the spec's worked example, record H2(0.7) -/
def sampleH2 : Record :=
  [("Substance".data, Value.str "H2".data), ("Flammability".data, Value.flt ⟨7, 1⟩)]

/-- the spec's worked example dataset in file order -/
def sampleData : List Record := [sampleAl, sampleO2, sampleH2]

/-- record with flammability 0.7 of the threshold example -/
def recA : Record := [("name".data, Value.str "a".data), ("flammability".data, Value.flt ⟨7, 1⟩)]

/-- record with flammability 0.69999 of the threshold example -/
def recB : Record :=
  [("name".data, Value.str "b".data), ("flammability".data, Value.flt ⟨69999, 5⟩)]

/-- record with flammability 1.0 of the threshold example -/
def recC : Record := [("name".data, Value.str "c".data), ("flammability".data, Value.flt ⟨10, 1⟩)]

/-- the spec's threshold example dataset with values [0.7, 0.69999, 1.0] -/
def thresholdData : List Record := [recA, recB, recC]

/-- semantic (Python `==`) equality of two cell values -/
def valueEqv : Value → Value → Bool
  | Value.str s, Value.str t => decide (s = t)
  | Value.flt x, Value.flt y => Dec.eqv x y
  | _, _ => false

/-- semantic equality of two records: the same keys in the same order with
numerically equal values -/
def recordEqv : Record → Record → Bool
  | [], [] => true
  | p :: r, q :: s => decide (p.1 = q.1) && valueEqv p.2 q.2 && recordEqv r s
  | _, _ => false

/-! Numeric lemmas: the bridge from `Dec` to `ℚ`. -/

theorem pow10_pos (n : Nat) : 0 < pow10 n := by
  induction n with
  | zero => simp [pow10]
  | succ n ih => simp [pow10]; omega

theorem pow10_cast_pos (n : Nat) : (0 : ℚ) < ((pow10 n : Nat) : ℚ) := by
  exact_mod_cast pow10_pos n

theorem Dec.le_iff (a b : Dec) : Dec.le a b = true ↔ toRat a ≤ toRat b := by
  unfold Dec.le toRat
  rw [div_le_div_iff₀ (pow10_cast_pos a.exp) (pow10_cast_pos b.exp), decide_eq_true_eq]
  constructor
  · intro h; exact_mod_cast h
  · intro h; exact_mod_cast h

theorem Dec.eqv_iff (a b : Dec) : Dec.eqv a b = true ↔ toRat a = toRat b := by
  unfold Dec.eqv toRat
  rw [div_eq_div_iff (ne_of_gt (pow10_cast_pos a.exp)) (ne_of_gt (pow10_cast_pos b.exp)),
    decide_eq_true_eq]
  constructor
  · intro h; exact_mod_cast h
  · intro h; exact_mod_cast h

theorem rhe100_eq (x : Dec) : rhe100 x = rheRat (100 * toRat x) := by
  have hdq : (0 : ℚ) < ((pow10 x.exp : Nat) : ℚ) := pow10_cast_pos x.exp
  set a : Int := 100 * x.num with ha
  set d : Int := ((pow10 x.exp : Nat) : Int) with hd
  set q : Int := a / d with hqdef
  set r : Int := a % d with hrdef
  have hcast : ((d : Int) : ℚ) = ((pow10 x.exp : Nat) : ℚ) := by rw [hd]; push_cast; ring
  have hdq2 : (0 : ℚ) < ((d : Int) : ℚ) := by rw [hcast]; exact hdq
  have hval : 100 * toRat x = ((a : Int) : ℚ) / ((d : Int) : ℚ) := by
    rw [toRat, ha, hcast]; push_cast; ring
  have hq : ⌊100 * toRat x⌋ = q := by
    rw [hval, hqdef, hd]
    exact_mod_cast Rat.floor_intCast_div_natCast a (pow10 x.exp)
  have hr : ((r : Int) : ℚ) = ((a : Int) : ℚ) - ((d : Int) : ℚ) * ((q : Int) : ℚ) := by
    rw [hrdef, hqdef, Int.emod_def]; push_cast; ring
  have hfr : Int.fract (100 * toRat x) = ((r : Int) : ℚ) / ((d : Int) : ℚ) := by
    unfold Int.fract
    rw [hq, hval, hr]
    field_simp
  have hlt : (2 * r < d) ↔ Int.fract (100 * toRat x) < 1 / 2 := by
    rw [hfr, div_lt_div_iff₀ hdq2 (by norm_num : (0:ℚ) < 2), one_mul]
    constructor
    · intro h
      have h2 : (r * 2 : Int) < d := by omega
      exact_mod_cast h2
    · intro h
      have h2 : (r * 2 : Int) < d := by exact_mod_cast h
      omega
  have hgt : (d < 2 * r) ↔ (1 / 2 : ℚ) < Int.fract (100 * toRat x) := by
    rw [hfr, div_lt_div_iff₀ (by norm_num : (0:ℚ) < 2) hdq2, one_mul]
    constructor
    · intro h
      have h2 : (d : Int) < r * 2 := by omega
      exact_mod_cast h2
    · intro h
      have h2 : (d : Int) < r * 2 := by exact_mod_cast h
      omega
  have hL : rhe100 x =
      if 2 * r < d then q else if d < 2 * r then q + 1 else if q % 2 = 0 then q else q + 1 := rfl
  rw [hL, rheRat, hq]
  by_cases h1 : 2 * r < d
  · rw [if_pos h1, if_pos (hlt.mp h1)]
  · rw [if_neg h1, if_neg (fun hc => h1 (hlt.mpr hc))]
    by_cases h2 : d < 2 * r
    · rw [if_pos h2, if_pos (hgt.mp h2)]
    · rw [if_neg h2, if_neg (fun hc => h2 (hgt.mpr hc))]

theorem rheRat_ge (p : ℚ) (n : Int) (h : (n : ℚ) ≤ p) : n ≤ rheRat p := by
  have hf : n ≤ ⌊p⌋ := Int.le_floor.mpr h
  unfold rheRat
  split_ifs <;> omega

theorem rheRat_mono {p q : ℚ} (h : p ≤ q) : rheRat p ≤ rheRat q := by
  have hf : ⌊p⌋ ≤ ⌊q⌋ := Int.floor_le_floor h
  rcases lt_or_eq_of_le hf with hlt | heq
  · have h1 : rheRat p ≤ ⌊p⌋ + 1 := by unfold rheRat; split_ifs <;> omega
    have h2 : ⌊q⌋ ≤ rheRat q := by unfold rheRat; split_ifs <;> omega
    omega
  · have hfr : Int.fract p ≤ Int.fract q := by
      rw [Int.fract, Int.fract, heq]; linarith
    unfold rheRat
    rw [← heq]
    split_ifs <;> first | omega | linarith

/-! Digit printing and its inversion by the float parser. -/

theorem digitChar_toNat (d : Nat) (h : d < 10) : (digitChar d).toNat = 48 + d := by
  interval_cases d <;> decide

theorem digitChar_isDigit (d : Nat) (h : d < 10) : (digitChar d).isDigit = true := by
  interval_cases d <;> decide

theorem digitChar_not_ws (d : Nat) (h : d < 10) : isWS (digitChar d) = false := by
  interval_cases d <;> decide

theorem digitChar_ne_comma (d : Nat) (h : d < 10) : digitChar d ≠ ',' := by
  interval_cases d <;> decide

theorem digitChar_ne_minus (d : Nat) (h : d < 10) : digitChar d ≠ '-' := by
  interval_cases d <;> decide

theorem digitChar_ne_plus (d : Nat) (h : d < 10) : digitChar d ≠ '+' := by
  interval_cases d <;> decide

theorem digitsToNat_append (xs : Str) (c : Char) :
    digitsToNat (xs ++ [c]) = 10 * digitsToNat xs + (c.toNat - 48) := by
  unfold digitsToNat
  rw [List.foldl_append]
  rfl

theorem natToDecAux_spec (fuel : Nat) : ∀ n : Nat, n < 10 ^ (fuel + 1) →
    digitsToNat (natToDecAux (fuel + 1) n) = n ∧ natToDecAux (fuel + 1) n ≠ [] ∧
      ∀ c ∈ natToDecAux (fuel + 1) n, ∃ d, d < 10 ∧ c = digitChar d := by
  induction fuel with
  | zero =>
    intro n h
    have h10 : n < 10 := by simpa using h
    refine ⟨?_, ?_, ?_⟩
    · simp [natToDecAux, h10, digitsToNat, digitChar_toNat n h10]
    · simp [natToDecAux, h10]
    · intro c hc
      simp [natToDecAux, h10] at hc
      exact ⟨n, h10, hc⟩
  | succ fuel ih =>
    intro n h
    by_cases h10 : n < 10
    · refine ⟨?_, ?_, ?_⟩
      · simp [natToDecAux, h10, digitsToNat, digitChar_toNat n h10]
      · simp [natToDecAux, h10]
      · intro c hc
        simp [natToDecAux, h10] at hc
        exact ⟨n, h10, hc⟩
    · have hdiv : n / 10 < 10 ^ (fuel + 1) := by
        rw [Nat.div_lt_iff_lt_mul (by norm_num)]
        calc n < 10 ^ (fuel + 1 + 1) := h
        _ = 10 ^ (fuel + 1) * 10 := by ring
      obtain ⟨ihv, ihne, ihc⟩ := ih (n / 10) hdiv
      have hstep : natToDecAux (fuel + 1 + 1) n =
          natToDecAux (fuel + 1) (n / 10) ++ [digitChar (n % 10)] := by
        simp [natToDecAux, h10]
      refine ⟨?_, ?_, ?_⟩
      · rw [hstep, digitsToNat_append, ihv, digitChar_toNat (n % 10) (by omega)]
        omega
      · rw [hstep]; simp
      · intro c hc
        rw [hstep] at hc
        rcases List.mem_append.mp hc with hc | hc
        · exact ihc c hc
        · simp at hc
          exact ⟨n % 10, by omega, hc⟩

theorem natToDec_spec (n : Nat) :
    digitsToNat (natToDec n) = n ∧ natToDec n ≠ [] ∧
      ∀ c ∈ natToDec n, ∃ d, d < 10 ∧ c = digitChar d := by
  have h : n < 10 ^ (n + 1) :=
    lt_of_lt_of_le (Nat.lt_pow_self (by norm_num) n) (Nat.pow_le_pow_right (by norm_num) (by omega))
  exact natToDecAux_spec n n h

theorem natToDec_isDigit (n : Nat) : ∀ c ∈ natToDec n, c.isDigit = true := by
  intro c hc
  obtain ⟨d, hd, rfl⟩ := (natToDec_spec n).2.2 c hc
  exact digitChar_isDigit d hd

theorem digitsToNat_pair (t o : Nat) (ht : t < 10) (ho : o < 10) :
    digitsToNat [digitChar t, digitChar o] = 10 * t + o := by
  have h1 := digitChar_toNat t ht
  have h2 := digitChar_toNat o ho
  simp [digitsToNat, h1, h2]

theorem parsePosDec_shape (xs : Str) (t o : Nat) (ht : t < 10) (ho : o < 10)
    (hx : ∀ a ∈ xs, a.isDigit = true) (hne : xs ≠ []) :
    parsePosDec (xs ++ '.' :: [digitChar t, digitChar o]) =
      some ⟨(digitsToNat xs * 100 + (10 * t + o) : Nat), 2⟩ := by
  unfold parsePosDec
  rw [List.takeWhile_append_of_pos hx, List.dropWhile_append_of_pos hx]
  have hdot : ('.' :: [digitChar t, digitChar o]).takeWhile Char.isDigit = [] := by
    simp [List.takeWhile_cons]
  have hdot2 : ('.' :: [digitChar t, digitChar o]).dropWhile Char.isDigit =
      '.' :: [digitChar t, digitChar o] := by
    simp [List.dropWhile_cons]
  rw [hdot, hdot2]
  simp only [List.append_nil]
  have hcond : ([digitChar t, digitChar o].all Char.isDigit = true) ∧
      (xs ≠ [] ∨ [digitChar t, digitChar o] ≠ []) := by
    refine ⟨?_, Or.inl hne⟩
    simp [digitChar_isDigit t ht, digitChar_isDigit o ho]
  rw [if_pos hcond]
  rw [digitsToNat_pair t o ht ho]
  simp [pow10]

theorem formatFloat2_parse (x : Dec) : parseFloat (formatFloat2 x) = some ⟨rhe100 x, 2⟩ := by
  set n := rhe100 x with hn
  set a := n.natAbs with ha
  obtain ⟨hxsv, hxsne, hxsc⟩ := natToDec_spec (a / 100)
  have hxsd : ∀ c ∈ natToDec (a / 100), c.isDigit = true := natToDec_isDigit (a / 100)
  have hbody : parsePosDec (natToDec (a / 100) ++ '.' :: [digitChar (a / 10 % 10), digitChar (a % 10)]) =
      some ⟨(digitsToNat (natToDec (a / 100)) * 100 + (10 * (a / 10 % 10) + a % 10) : Nat), 2⟩ :=
    parsePosDec_shape _ _ _ (by omega) (by omega) hxsd hxsne
  have hval : (digitsToNat (natToDec (a / 100)) * 100 + (10 * (a / 10 % 10) + a % 10) : Nat) = a := by
    rw [hxsv]; omega
  rw [hval] at hbody
  by_cases hneg : n < 0
  · have hform : formatFloat2 x = '-' ::
        (natToDec (a / 100) ++ '.' :: [digitChar (a / 10 % 10), digitChar (a % 10)]) := by
      show (if n < 0 then ['-'] else []) ++
          natToDec (a / 100) ++ '.' :: [digitChar (a / 10 % 10), digitChar (a % 10)] = _
      rw [if_pos hneg]
      rfl
    rw [hform]
    show (parsePosDec _).map _ = _
    rw [hbody]
    show some (⟨-(a : Int), 2⟩ : Dec) = some ⟨n, 2⟩
    have hna : -((a : Nat) : Int) = n := by omega
    rw [hna]
  · have hform : formatFloat2 x =
        natToDec (a / 100) ++ '.' :: [digitChar (a / 10 % 10), digitChar (a % 10)] := by
      show (if n < 0 then ['-'] else []) ++
          natToDec (a / 100) ++ '.' :: [digitChar (a / 10 % 10), digitChar (a % 10)] = _
      rw [if_neg hneg]
      rfl
    obtain ⟨c, xs2, hxs2⟩ := List.exists_cons_of_ne_nil hxsne
    obtain ⟨d, hd, hcd⟩ := hxsc c (by rw [hxs2]; exact List.mem_cons_self c xs2)
    have hcm : c ≠ '-' := by rw [hcd]; exact digitChar_ne_minus d hd
    have hcp : c ≠ '+' := by rw [hcd]; exact digitChar_ne_plus d hd
    have hform2 : formatFloat2 x = c ::
        (xs2 ++ '.' :: [digitChar (a / 10 % 10), digitChar (a % 10)]) := by
      rw [hform, hxs2]; rfl
    rw [hform2]
    unfold parseFloat
    split
    · rename_i heq
      exact absurd (List.cons.inj heq).1 hcm
    · rename_i heq
      exact absurd (List.cons.inj heq).1 hcp
    · rw [← hform2, hform, hbody]
      congr 1
      have : (a : Int) = n := by omega
      rw [this]

/-! Lemmas about trimming, splitting and joining. -/

theorem dropWhile_eq_self_of_headOK (l : Str) (h : headOK l) : l.dropWhile isWS = l := by
  cases l with
  | nil => rfl
  | cons c cs =>
    have hc : isWS c = false := h
    simp [List.dropWhile_cons, hc]

theorem trimStr_eq_self (l : Str) (h1 : headOK l) (h2 : lastOK l) : trimStr l = l := by
  unfold trimStr
  rw [dropWhile_eq_self_of_headOK l h1, dropWhile_eq_self_of_headOK l.reverse h2,
    List.reverse_reverse]

theorem headOK_dropWhile (l : Str) : headOK (l.dropWhile isWS) := by
  induction l with
  | nil => trivial
  | cons c cs ih =>
    rw [List.dropWhile_cons]
    by_cases h : isWS c = true
    · rw [if_pos h]; exact ih
    · rw [if_neg h]
      show isWS c = false
      simpa using h

theorem headOK_reverse_dropWhile_reverse (l : Str) (h : headOK l) :
    headOK ((l.reverse.dropWhile isWS).reverse) := by
  cases l with
  | nil => trivial
  | cons c cs =>
    have hc : isWS c = false := h
    rw [List.reverse_cons, List.dropWhile_append]
    by_cases he : (cs.reverse.dropWhile isWS).isEmpty
    · rw [if_pos he]
      simp [List.dropWhile_cons, hc]
      exact hc
    · rw [if_neg he]
      rw [List.reverse_append]
      show headOK ([c].reverse ++ (cs.reverse.dropWhile isWS).reverse)
      simp only [List.reverse_cons, List.reverse_nil, List.nil_append, List.cons_append]
      exact hc

theorem trimStr_headOK (l : Str) : headOK (trimStr l) :=
  headOK_reverse_dropWhile_reverse _ (headOK_dropWhile l)

theorem trimStr_lastOK (l : Str) : lastOK (trimStr l) := by
  unfold lastOK trimStr
  rw [List.reverse_reverse]
  exact headOK_dropWhile _

theorem trimStr_idem (l : Str) : trimStr (trimStr l) = trimStr l :=
  trimStr_eq_self _ (trimStr_headOK l) (trimStr_lastOK l)

theorem headOK_of_trimFixed (l : Str) (h : trimStr l = l) : headOK l := h ▸ trimStr_headOK l

theorem lastOK_of_trimFixed (l : Str) (h : trimStr l = l) : lastOK l := h ▸ trimStr_lastOK l

theorem mem_trimStr (c : Char) (l : Str) (h : c ∈ trimStr l) : c ∈ l := by
  unfold trimStr at h
  rw [List.mem_reverse] at h
  have h2 := (List.dropWhile_sublist isWS).subset h
  rw [List.mem_reverse] at h2
  exact (List.dropWhile_sublist isWS).subset h2

theorem headOK_append (x y : Str) (hx : headOK x) (hy : headOK y) : headOK (x ++ y) := by
  cases x with
  | nil => simpa using hy
  | cons c cs => exact hx

theorem lastOK_append (x y : Str) (hx : lastOK x) (hy : lastOK y) : lastOK (x ++ y) := by
  unfold lastOK
  rw [List.reverse_append]
  exact headOK_append _ _ hy hx

theorem noWS_headOK (l : Str) (h : ∀ c ∈ l, isWS c = false) : headOK l := by
  cases l with
  | nil => trivial
  | cons c cs => exact h c (List.mem_cons_self c cs)

theorem noWS_trimFixed (l : Str) (h : ∀ c ∈ l, isWS c = false) : trimStr l = l := by
  refine trimStr_eq_self l (noWS_headOK l h) (noWS_headOK l.reverse ?_)
  intro c hc
  exact h c (List.mem_reverse.mp hc)

theorem intercalateComma_edge (ls : List Str) :
    (∀ l ∈ ls, trimStr l = l) →
      headOK (intercalateComma ls) ∧ lastOK (intercalateComma ls) := by
  induction ls with
  | nil => intro h; exact ⟨trivial, trivial⟩
  | cons x ys ih =>
    intro h
    cases ys with
    | nil =>
      exact ⟨headOK_of_trimFixed x (h x (List.mem_cons_self x [])),
        lastOK_of_trimFixed x (h x (List.mem_cons_self x []))⟩
    | cons y zs =>
      have hx := h x (List.mem_cons_self x (y :: zs))
      obtain ⟨ihh, ihl⟩ := ih (fun l hl => h l (List.mem_cons_of_mem x hl))
      have hcI : headOK (',' :: intercalateComma (y :: zs)) := by
        show isWS ',' = false
        decide
      have hlI : lastOK (',' :: intercalateComma (y :: zs)) := by
        show lastOK ([','] ++ intercalateComma (y :: zs))
        exact lastOK_append _ _ (by show headOK [','].reverse; show isWS ',' = false; decide) ihl
      exact ⟨headOK_append x _ (headOK_of_trimFixed x hx) hcI,
        lastOK_append x _ (lastOK_of_trimFixed x hx) hlI⟩

theorem intercalateComma_trimFixed (ls : List Str) (h : ∀ l ∈ ls, trimStr l = l) :
    trimStr (intercalateComma ls) = intercalateComma ls :=
  trimStr_eq_self _ (intercalateComma_edge ls h).1 (intercalateComma_edge ls h).2

theorem splitComma_ne_nil (s : Str) : splitComma s ≠ [] := by
  induction s with
  | nil => simp [splitComma]
  | cons c cs ih =>
    unfold splitComma
    by_cases h : c = ','
    · simp [h]
    · rw [if_neg h]
      cases hsc : splitComma cs with
      | nil => simp
      | cons t ts => simp

theorem mem_splitComma_no_comma (s : Str) : ∀ t ∈ splitComma s, ',' ∉ t := by
  induction s with
  | nil =>
    intro t ht
    simp [splitComma] at ht
    simp [ht]
  | cons c cs ih =>
    intro t ht
    unfold splitComma at ht
    by_cases h : c = ','
    · rw [if_pos h] at ht
      rcases List.mem_cons.mp ht with rfl | hht
      · simp
      · exact ih t hht
    · rw [if_neg h] at ht
      cases hsc : splitComma cs with
      | nil => exact absurd hsc (splitComma_ne_nil cs)
      | cons u us =>
        rw [hsc] at ht
        rcases List.mem_cons.mp ht with rfl | hht
        · intro hmem
          rcases List.mem_cons.mp hmem with he | hu
          · exact h he.symm
          · exact ih u (by rw [hsc]; exact List.mem_cons_self u us) hu
        · exact ih t (by rw [hsc]; exact List.mem_cons_of_mem u hht)

theorem splitComma_no_comma_self (s : Str) (h : ',' ∉ s) : splitComma s = [s] := by
  induction s with
  | nil => rfl
  | cons c cs ih =>
    have hc : ¬c = ',' := fun he => h (he ▸ List.mem_cons_self c cs)
    unfold splitComma
    rw [if_neg hc, ih (fun hm => h (List.mem_cons_of_mem c hm))]

theorem splitComma_append_comma (x t : Str) (h : ',' ∉ x) :
    splitComma (x ++ ',' :: t) = x :: splitComma t := by
  induction x with
  | nil => simp [splitComma]
  | cons c cs ih =>
    have hc : ¬c = ',' := fun he => h (he ▸ List.mem_cons_self c cs)
    show splitComma (c :: (cs ++ ',' :: t)) = (c :: cs) :: splitComma t
    rw [show splitComma (c :: (cs ++ ',' :: t)) =
        (if c = ',' then [] :: splitComma (cs ++ ',' :: t)
         else match splitComma (cs ++ ',' :: t) with
           | [] => [[c]]
           | u :: us => (c :: u) :: us) from rfl]
    rw [if_neg hc, ih (fun hm => h (List.mem_cons_of_mem c hm))]

theorem splitComma_intercalate (ls : List Str) (hne : ls ≠ []) (h : ∀ l ∈ ls, ',' ∉ l) :
    splitComma (intercalateComma ls) = ls := by
  induction ls with
  | nil => exact absurd rfl hne
  | cons x ys ih =>
    cases ys with
    | nil => exact splitComma_no_comma_self x (h x (List.mem_cons_self x []))
    | cons y zs =>
      show splitComma (x ++ ',' :: intercalateComma (y :: zs)) = x :: (y :: zs)
      rw [splitComma_append_comma x _ (h x (List.mem_cons_self x (y :: zs)))]
      rw [ih (by simp) (fun l hl => h l (List.mem_cons_of_mem x hl))]

/-! Character facts about formatted floats. -/

theorem formatFloat2_chars (x : Dec) : ∀ c ∈ formatFloat2 x, isWS c = false ∧ c ≠ ',' := by
  intro c hc
  have hform : formatFloat2 x = ((if rhe100 x < 0 then ['-'] else []) ++
      natToDec ((rhe100 x).natAbs / 100)) ++
      '.' :: [digitChar ((rhe100 x).natAbs / 10 % 10), digitChar ((rhe100 x).natAbs % 10)] := by
    show (if rhe100 x < 0 then ['-'] else []) ++
        natToDec ((rhe100 x).natAbs / 100) ++
        '.' :: [digitChar ((rhe100 x).natAbs / 10 % 10), digitChar ((rhe100 x).natAbs % 10)] = _
    rw [List.append_assoc]
  rw [hform] at hc
  rcases List.mem_append.mp hc with h1 | h1
  · rcases List.mem_append.mp h1 with h2 | h2
    · have hcm : c = '-' := by
        by_cases hn : rhe100 x < 0
        · rw [if_pos hn] at h2; simpa using h2
        · rw [if_neg hn] at h2; simp at h2
      rw [hcm]
      exact ⟨by decide, by decide⟩
    · obtain ⟨d, hd, rfl⟩ := (natToDec_spec _).2.2 c h2
      exact ⟨digitChar_not_ws d hd, digitChar_ne_comma d hd⟩
  · rcases List.mem_cons.mp h1 with rfl | h2
    · exact ⟨by decide, by decide⟩
    · rcases List.mem_cons.mp h2 with rfl | h3
      · exact ⟨digitChar_not_ws _ (by omega), digitChar_ne_comma _ (by omega)⟩
      · rcases List.mem_cons.mp h3 with rfl | h4
        · exact ⟨digitChar_not_ws _ (by omega), digitChar_ne_comma _ (by omega)⟩
        · simp at h4

theorem formatFloat2_trimFixed (x : Dec) : trimStr (formatFloat2 x) = formatFloat2 x :=
  noWS_trimFixed _ (fun c hc => (formatFloat2_chars x c hc).1)

theorem formatFloat2_no_comma (x : Dec) : ',' ∉ formatFloat2 x :=
  fun hc => (formatFloat2_chars x ',' hc).2 rfl

/-! Lemmas about records as Python dicts. -/

theorem mkCell_key (h v : Str) : (mkCell h v).1 = trimStr h := by
  unfold mkCell
  split
  · split <;> rfl
  · rfl

theorem mkCell_eta (h v : Str) : ((mkCell h v).1, (mkCell h v).2) = mkCell h v := rfl

theorem mkCell_str (h v : Str) (hf : isFlamName (trimStr h) = false) :
    mkCell h v = (trimStr h, Value.str (trimStr v)) := by
  unfold mkCell
  rw [if_neg (by simp [hf])]

theorem mkCell_flam_some (h v : Str) (x : Dec) (hf : isFlamName (trimStr h) = true)
    (hp : parseFloat (trimStr v) = some x) : mkCell h v = (trimStr h, Value.flt x) := by
  unfold mkCell
  rw [if_pos hf, hp]

theorem mkCell_flam_none (h v : Str) (hf : isFlamName (trimStr h) = true)
    (hp : parseFloat (trimStr v) = none) : mkCell h v = (trimStr h, Value.flt ⟨0, 0⟩) := by
  unfold mkCell
  rw [if_pos hf, hp]

theorem keysOf_cons (p : Str × Value) (r : Record) : keysOf (p :: r) = p.1 :: keysOf r := rfl

theorem mem_keysOf_cons (k : Str) (p : Str × Value) (r : Record) (h : k ∈ keysOf (p :: r)) :
    p.1 = k ∨ k ∈ keysOf r := by
  rw [keysOf_cons] at h
  rcases List.mem_cons.mp h with he | hm
  · exact Or.inl he.symm
  · exact Or.inr hm

theorem keysOf_dictInsert_mem (k : Str) (v : Value) (r : Record) (h : k ∈ keysOf r) :
    keysOf (dictInsert k v r) = keysOf r := by
  induction r with
  | nil => simp [keysOf] at h
  | cons p ps ih =>
    unfold dictInsert
    by_cases hp : p.1 = k
    · rw [if_pos hp, keysOf_cons, keysOf_cons, hp]
    · rw [if_neg hp]
      have hmem : k ∈ keysOf ps := by
        rcases mem_keysOf_cons k p ps h with he | hm
        · exact absurd he hp
        · exact hm
      rw [keysOf_cons, keysOf_cons, ih hmem]

theorem keysOf_dictInsert_not_mem (k : Str) (v : Value) (r : Record) (h : k ∉ keysOf r) :
    keysOf (dictInsert k v r) = keysOf r ++ [k] := by
  induction r with
  | nil => rfl
  | cons p ps ih =>
    unfold dictInsert
    have hp : ¬p.1 = k := by
      intro he
      exact h (by rw [keysOf_cons, he]; exact List.mem_cons_self k (keysOf ps))
    rw [if_neg hp]
    have hmem : k ∉ keysOf ps := fun hm => h (by rw [keysOf_cons]; exact List.mem_cons_of_mem _ hm)
    rw [keysOf_cons, keysOf_cons, ih hmem]
    rfl

theorem dictInsert_fresh (k : Str) (v : Value) (r : Record) (h : k ∉ keysOf r) :
    dictInsert k v r = r ++ [(k, v)] := by
  induction r with
  | nil => rfl
  | cons p ps ih =>
    unfold dictInsert
    have hp : ¬p.1 = k := by
      intro he
      exact h (by rw [keysOf_cons, he]; exact List.mem_cons_self k (keysOf ps))
    rw [if_neg hp]
    have hmem : k ∉ keysOf ps := fun hm => h (by rw [keysOf_cons]; exact List.mem_cons_of_mem _ hm)
    rw [ih hmem]
    rfl

theorem mem_dictInsert (k : Str) (v : Value) (r : Record) (p : Str × Value)
    (h : p ∈ dictInsert k v r) : p = (k, v) ∨ p ∈ r := by
  induction r with
  | nil => simpa [dictInsert] using h
  | cons q qs ih =>
    unfold dictInsert at h
    by_cases hq : q.1 = k
    · rw [if_pos hq] at h
      rcases List.mem_cons.mp h with rfl | hm
      · exact Or.inl rfl
      · exact Or.inr (List.mem_cons_of_mem q hm)
    · rw [if_neg hq] at h
      rcases List.mem_cons.mp h with rfl | hm
      · exact Or.inr (List.mem_cons_self p qs)
      · rcases ih hm with he | hm2
        · exact Or.inl he
        · exact Or.inr (List.mem_cons_of_mem q hm2)

theorem dlookup_dictInsert (k k2 : Str) (v : Value) (r : Record) :
    dlookup k2 (dictInsert k v r) = if k = k2 then some v else dlookup k2 r := by
  induction r with
  | nil => rfl
  | cons p ps ih =>
    unfold dictInsert
    by_cases hp : p.1 = k
    · rw [if_pos hp]
      show (if k = k2 then some v else dlookup k2 ps) =
        if k = k2 then some v else dlookup k2 (p :: ps)
      by_cases hk : k = k2
      · rw [if_pos hk, if_pos hk]
      · rw [if_neg hk, if_neg hk]
        show dlookup k2 ps = if p.1 = k2 then some p.2 else dlookup k2 ps
        rw [if_neg (fun h2 => hk (by rw [← hp, h2]))]
    · rw [if_neg hp]
      show (if p.1 = k2 then some p.2 else dlookup k2 (dictInsert k v ps)) =
        if k = k2 then some v else dlookup k2 (p :: ps)
      by_cases hp2 : p.1 = k2
      · rw [if_pos hp2, if_neg (fun he => hp (hp2.trans he.symm))]
        show some p.2 = if p.1 = k2 then some p.2 else dlookup k2 ps
        rw [if_pos hp2]
      · rw [if_neg hp2, ih]
        by_cases hk : k = k2
        · rw [if_pos hk, if_pos hk]
        · rw [if_neg hk, if_neg hk]
          show dlookup k2 ps = if p.1 = k2 then some p.2 else dlookup k2 ps
          rw [if_neg hp2]

theorem dlookup_mem (k : Str) (v : Value) (r : Record) (h : dlookup k r = some v) :
    (k, v) ∈ r := by
  induction r with
  | nil => simp [dlookup] at h
  | cons p ps ih =>
    unfold dlookup at h
    by_cases hp : p.1 = k
    · rw [if_pos hp] at h
      have hv : p.2 = v := Option.some.inj h
      have hpkv : p = (k, v) := by
        obtain ⟨p1, p2⟩ := p
        show (p1, p2) = (k, v)
        rw [show p1 = k from hp, show p2 = v from hv]
      rw [← hpkv]
      exact List.mem_cons_self p ps
    · rw [if_neg hp] at h
      exact List.mem_cons_of_mem p (ih h)

theorem dlookup_isSome_of_mem_keys (k : Str) (r : Record) (h : k ∈ keysOf r) :
    ∃ v, dlookup k r = some v := by
  induction r with
  | nil => simp [keysOf] at h
  | cons p ps ih =>
    unfold dlookup
    by_cases hp : p.1 = k
    · exact ⟨p.2, by rw [if_pos hp]⟩
    · rw [if_neg hp]
      apply ih
      rcases mem_keysOf_cons k p ps h with he | hm
      · exact absurd he hp
      · exact hm

theorem dlookup_of_mem_nodup (r : Record) (p : Str × Value) (hn : (keysOf r).Nodup)
    (h : p ∈ r) : dlookup p.1 r = some p.2 := by
  induction r with
  | nil => simp at h
  | cons q qs ih =>
    have hn2 : (keysOf qs).Nodup := by
      simp only [keysOf, List.map_cons, List.nodup_cons] at hn
      exact hn.2
    have hq1 : q.1 ∉ keysOf qs := by
      simp only [keysOf, List.map_cons, List.nodup_cons] at hn
      exact hn.1
    rcases List.mem_cons.mp h with rfl | hm
    · unfold dlookup
      rw [if_pos rfl]
    · have hne : ¬q.1 = p.1 := by
        intro he
        apply hq1
        rw [he]
        simp only [keysOf, List.mem_map]
        exact ⟨p, hm, rfl⟩
      unfold dlookup
      rw [if_neg hne]
      exact ih hn2 hm

/-! Lemmas about `buildRow` and `addNewKeys`. -/

theorem buildRow_eq_foldl (header vals : List Str) :
    buildRow header vals = (header.zip vals).foldl rowStep [] := rfl

theorem keysOf_foldl_rowStep (l : List (Str × Str)) (d : Record) :
    keysOf (l.foldl rowStep d) = addNewKeys (keysOf d) (l.map (fun p => trimStr p.1)) := by
  induction l generalizing d with
  | nil => rfl
  | cons p ps ih =>
    rw [List.foldl_cons, ih, List.map_cons]
    have hstep : addNewKeys (keysOf d) (trimStr p.1 :: ps.map (fun p => trimStr p.1)) =
        addNewKeys (if trimStr p.1 ∈ keysOf d then keysOf d else keysOf d ++ [trimStr p.1])
          (ps.map (fun p => trimStr p.1)) := rfl
    rw [hstep]
    congr 1
    rw [rowStep, mkCell_key]
    by_cases hm : trimStr p.1 ∈ keysOf d
    · rw [keysOf_dictInsert_mem _ _ _ hm, if_pos hm]
    · rw [keysOf_dictInsert_not_mem _ _ _ hm, if_neg hm]

theorem keysOf_buildRow (header vals : List Str) (hlen : vals.length = header.length) :
    keysOf (buildRow header vals) = addNewKeys [] (header.map trimStr) := by
  rw [buildRow_eq_foldl, keysOf_foldl_rowStep]
  have hz : (header.zip vals).map (fun p => trimStr p.1) = header.map trimStr := by
    rw [show (fun p : Str × Str => trimStr p.1) = (trimStr ∘ Prod.fst) from rfl]
    rw [← List.map_map, List.map_fst_zip header vals (by omega)]
  rw [hz]
  rfl

theorem addNewKeys_sub (hs : List Str) : ∀ ks : List Str, ∀ x ∈ addNewKeys ks hs, x ∈ ks ∨ x ∈ hs := by
  induction hs with
  | nil => intro ks x hx; exact Or.inl hx
  | cons h t ih =>
    intro ks x hx
    have hx2 : x ∈ addNewKeys (if h ∈ ks then ks else ks ++ [h]) t := hx
    rcases ih _ x hx2 with hk | ht
    · by_cases hm : h ∈ ks
      · rw [if_pos hm] at hk
        exact Or.inl hk
      · rw [if_neg hm] at hk
        rcases List.mem_append.mp hk with hk2 | hk2
        · exact Or.inl hk2
        · right
          rw [show x = h by simpa using hk2]
          exact List.mem_cons_self h t
    · exact Or.inr (List.mem_cons_of_mem h ht)

theorem mem_addNewKeys_of_mem (hs : List Str) : ∀ ks : List Str, ∀ x ∈ ks, x ∈ addNewKeys ks hs := by
  induction hs with
  | nil => intro ks x hx; exact hx
  | cons h t ih =>
    intro ks x hx
    show x ∈ addNewKeys (if h ∈ ks then ks else ks ++ [h]) t
    apply ih
    by_cases hm : h ∈ ks
    · rw [if_pos hm]; exact hx
    · rw [if_neg hm]; exact List.mem_append_left _ hx

theorem addNewKeys_cons_ne_nil (h : Str) (t : List Str) : addNewKeys [] (h :: t) ≠ [] := by
  have h1 : addNewKeys [] (h :: t) = addNewKeys [h] t := by
    show addNewKeys (if h ∈ ([] : List Str) then [] else [] ++ [h]) t = addNewKeys [h] t
    rw [if_neg (List.not_mem_nil h)]
    rfl
  rw [h1]
  exact List.ne_nil_of_mem (mem_addNewKeys_of_mem t [h] h (List.mem_cons_self h []))

theorem addNewKeys_nodup (hs : List Str) : ∀ ks : List Str, ks.Nodup → (addNewKeys ks hs).Nodup := by
  induction hs with
  | nil => intro ks h; exact h
  | cons h t ih =>
    intro ks hks
    show (addNewKeys (if h ∈ ks then ks else ks ++ [h]) t).Nodup
    apply ih
    by_cases hm : h ∈ ks
    · rw [if_pos hm]; exact hks
    · rw [if_neg hm]
      rw [← List.concat_eq_append]
      exact hks.concat hm

theorem addNewKeys_eq_append (hs : List Str) : ∀ ks : List Str, hs.Nodup →
    (∀ x ∈ hs, x ∉ ks) → addNewKeys ks hs = ks ++ hs := by
  induction hs with
  | nil => intro ks _ _; simp [addNewKeys]
  | cons h t ih =>
    intro ks hnd hdisj
    have hm : h ∉ ks := hdisj h (List.mem_cons_self h t)
    show addNewKeys (if h ∈ ks then ks else ks ++ [h]) t = ks ++ h :: t
    rw [if_neg hm]
    rw [ih (ks ++ [h]) (List.nodup_cons.mp hnd).2]
    · rw [List.append_assoc]
      rfl
    · intro x hx hmem
      rcases List.mem_append.mp hmem with h2 | h2
      · exact hdisj x (List.mem_cons_of_mem h hx) h2
      · have : x = h := by simpa using h2
        exact (List.nodup_cons.mp hnd).1 (this ▸ hx)

theorem addNewKeys_eq_self (hs : List Str) (h : hs.Nodup) : addNewKeys [] hs = hs := by
  rw [addNewKeys_eq_append hs [] h (fun x _ => List.not_mem_nil x)]
  rfl

theorem mkCell_cellOK (h v : Str) : cellOK (mkCell h v) := by
  by_cases hf : isFlamName (trimStr h) = true
  · cases hp : parseFloat (trimStr v) with
    | some x =>
      rw [mkCell_flam_some h v x hf hp]
      exact ⟨trimStr_idem h, hf⟩
    | none =>
      rw [mkCell_flam_none h v hf hp]
      exact ⟨trimStr_idem h, hf⟩
  · have hf2 : isFlamName (trimStr h) = false := by simpa using hf
    rw [mkCell_str h v hf2]
    exact ⟨trimStr_idem h, hf2, v, rfl⟩

theorem foldl_rowStep_cellOK (l : List (Str × Str)) : ∀ d : Record,
    (∀ p ∈ d, cellOK p) → ∀ p ∈ l.foldl rowStep d, cellOK p := by
  induction l with
  | nil => intro d hd; exact hd
  | cons q qs ih =>
    intro d hd
    rw [List.foldl_cons]
    apply ih
    intro p hp
    rcases mem_dictInsert _ _ _ p hp with he | hm
    · rw [he]
      exact mkCell_cellOK q.1 q.2
    · exact hd p hm

theorem buildRow_cellOK (header vals : List Str) : ∀ p ∈ buildRow header vals, cellOK p := by
  rw [buildRow_eq_foldl]
  exact foldl_rowStep_cellOK _ [] (fun p hp => absurd hp (List.not_mem_nil p))

theorem mkCell_noComma (h v : Str) (hh : ',' ∉ h) (hv : ',' ∉ v) : cellNoComma (mkCell h v) := by
  have hkey : ',' ∉ trimStr h := fun hc => hh (mem_trimStr ',' h hc)
  by_cases hf : isFlamName (trimStr h) = true
  · cases hp : parseFloat (trimStr v) with
    | some x =>
      rw [mkCell_flam_some h v x hf hp]
      exact ⟨hkey, trivial⟩
    | none =>
      rw [mkCell_flam_none h v hf hp]
      exact ⟨hkey, trivial⟩
  · have hf2 : isFlamName (trimStr h) = false := by simpa using hf
    rw [mkCell_str h v hf2]
    exact ⟨hkey, fun hc => hv (mem_trimStr ',' v hc)⟩

theorem foldl_rowStep_noComma (l : List (Str × Str)) : ∀ d : Record,
    (∀ p ∈ l, ',' ∉ p.1 ∧ ',' ∉ p.2) → (∀ p ∈ d, cellNoComma p) →
      ∀ p ∈ l.foldl rowStep d, cellNoComma p := by
  induction l with
  | nil => intro d _ hd; exact hd
  | cons q qs ih =>
    intro d hl hd
    rw [List.foldl_cons]
    apply ih _ (fun p hp => hl p (List.mem_cons_of_mem q hp))
    intro p hp
    rcases mem_dictInsert _ _ _ p hp with he | hm
    · rw [he]
      exact mkCell_noComma q.1 q.2 (hl q (List.mem_cons_self q qs)).1 (hl q (List.mem_cons_self q qs)).2
    · exact hd p hm

theorem keysOf_dictInsert_nodup (k : Str) (v : Value) (r : Record)
    (h : (keysOf r).Nodup) : (keysOf (dictInsert k v r)).Nodup := by
  by_cases hm : k ∈ keysOf r
  · rw [keysOf_dictInsert_mem _ _ _ hm]; exact h
  · rw [keysOf_dictInsert_not_mem _ _ _ hm, ← List.concat_eq_append]
    exact h.concat hm

theorem buildRow_keys_nodup (header vals : List Str) : (keysOf (buildRow header vals)).Nodup := by
  rw [buildRow_eq_foldl]
  have haux : ∀ (l : List (Str × Str)) (d : Record), (keysOf d).Nodup →
      (keysOf (l.foldl rowStep d)).Nodup := by
    intro l
    induction l with
    | nil => intro d hd; exact hd
    | cons q qs ih =>
      intro d hd
      rw [List.foldl_cons]
      exact ih _ (keysOf_dictInsert_nodup _ _ _ hd)
  exact haux _ [] List.nodup_nil

theorem foldl_rowStep_fresh (l : List (Str × Str)) : ∀ d : Record,
    (∀ p ∈ l, trimStr p.1 ∉ keysOf d) → (l.map (fun p => trimStr p.1)).Nodup →
      l.foldl rowStep d = d ++ l.map (fun p => mkCell p.1 p.2) := by
  induction l with
  | nil => intro d _ _; simp
  | cons q qs ih =>
    intro d hdisj hnd
    rw [List.foldl_cons, List.map_cons]
    have hq : trimStr q.1 ∉ keysOf d := hdisj q (List.mem_cons_self q qs)
    have hstep : rowStep d q = d ++ [mkCell q.1 q.2] := by
      rw [rowStep, dictInsert_fresh _ _ _ (by rw [mkCell_key]; exact hq)]
    have hkeys : keysOf (d ++ [mkCell q.1 q.2]) = keysOf d ++ [trimStr q.1] := by
      show List.map Prod.fst (d ++ [mkCell q.1 q.2]) = keysOf d ++ [trimStr q.1]
      rw [List.map_append]
      have hone : List.map Prod.fst [mkCell q.1 q.2] = [trimStr q.1] := by
        rw [List.map_cons, List.map_nil, mkCell_key]
      rw [hone]
      rfl
    rw [hstep, ih (d ++ [mkCell q.1 q.2]) ?hfresh ?hnd2]
    · rw [List.append_assoc]
      rfl
    case hfresh =>
      intro p hp
      rw [hkeys]
      intro hmem
      rcases List.mem_append.mp hmem with h2 | h2
      · exact hdisj p (List.mem_cons_of_mem q hp) h2
      · have he : trimStr p.1 = trimStr q.1 := by simpa using h2
        have hq1 : trimStr q.1 ∈ qs.map (fun p => trimStr p.1) :=
          he ▸ List.mem_map.mpr ⟨p, hp, rfl⟩
        rw [List.map_cons, List.nodup_cons] at hnd
        exact hnd.1 hq1
    case hnd2 =>
      rw [List.map_cons, List.nodup_cons] at hnd
      exact hnd.2

theorem buildRow_eq_map (header vals : List Str) (hnd : (header.map trimStr).Nodup)
    (hlen : vals.length = header.length) :
    buildRow header vals = (header.zip vals).map (fun p => mkCell p.1 p.2) := by
  rw [buildRow_eq_foldl]
  have hz : (header.zip vals).map (fun p => trimStr p.1) = header.map trimStr := by
    rw [show (fun p : Str × Str => trimStr p.1) = (trimStr ∘ Prod.fst) from rfl]
    rw [← List.map_map, List.map_fst_zip header vals (by omega)]
  rw [foldl_rowStep_fresh _ [] (fun p _ => List.not_mem_nil _) (by rw [hz]; exact hnd)]
  rfl

theorem zip_map_self {α β : Type} (f : α → β) (l : List α) :
    l.zip (l.map f) = l.map (fun a => (a, f a)) := by
  induction l with
  | nil => rfl
  | cons a t ih => simp [List.zip_cons_cons, ih]

/-! Loader characterization. -/

theorem readRows_eq (header : List Str) (lines : List Str) : ∀ acc : List Record,
    readRows header lines acc = acc ++ lines.filterMap (rowOf header) := by
  induction lines with
  | nil => intro acc; simp [readRows]
  | cons line rest ih =>
    intro acc
    unfold readRows
    rw [List.filterMap_cons]
    by_cases h1 : trimStr line = []
    · rw [if_pos h1, show rowOf header line = none from by rw [rowOf, if_pos h1]]
      exact ih acc
    · rw [if_neg h1]
      by_cases h2 : (splitComma (trimStr line)).length = header.length
      · rw [if_pos h2, show rowOf header line = some (buildRow header (splitComma (trimStr line)))
          from by rw [rowOf, if_neg h1, if_pos h2]]
        rw [ih (acc ++ [buildRow header (splitComma (trimStr line))])]
        rw [List.append_assoc]
        rfl
      · rw [if_neg h2, show rowOf header line = none from by rw [rowOf, if_neg h1, if_neg h2]]
        exact ih acc

theorem read_csv_data_eq (first : Str) (rest : List Str) :
    (read_csv_file (some (first :: rest))).data =
      rest.filterMap (rowOf (splitComma (trimStr first))) := by
  show readRows (splitComma (trimStr first)) rest [] = _
  rw [readRows_eq]
  rfl

/-! Lemmas about the sort. -/

theorem Dec.le_refl2 (a : Dec) : Dec.le a a = true := (Dec.le_iff a a).mpr le_rfl

theorem Dec.le_trans2 (a b c : Dec) (h1 : Dec.le a b = true) (h2 : Dec.le b c = true) :
    Dec.le a c = true :=
  (Dec.le_iff a c).mpr (le_trans ((Dec.le_iff a b).mp h1) ((Dec.le_iff b c).mp h2))

theorem Dec.le_of_not_le (a b : Dec) (h : ¬Dec.le a b = true) : Dec.le b a = true := by
  rcases le_total (toRat a) (toRat b) with hle | hle
  · exact absurd ((Dec.le_iff a b).mpr hle) h
  · exact (Dec.le_iff b a).mpr hle

theorem Dec.le_of_eqv_pair (a b v : Dec) (ha : Dec.eqv a v = true) (hb : Dec.eqv b v = true) :
    Dec.le a b = true :=
  (Dec.le_iff a b).mpr (le_of_eq (((Dec.eqv_iff a v).mp ha).trans ((Dec.eqv_iff b v).mp hb).symm))

theorem perm_insertRecDesc (k : Str) (x : Record) (l : List Record) :
    List.Perm (insertRecDesc k x l) (x :: l) := by
  induction l with
  | nil => exact List.Perm.refl [x]
  | cons y ys ih =>
    unfold insertRecDesc
    by_cases h : Dec.le (flamVal y k) (flamVal x k) = true
    · rw [if_pos h]
    · rw [if_neg h]
      exact (ih.cons y).trans (List.Perm.swap x y ys)

theorem perm_sortRecDesc (k : Str) (l : List Record) : List.Perm (sortRecDesc k l) l := by
  induction l with
  | nil => exact List.Perm.refl []
  | cons x xs ih =>
    unfold sortRecDesc
    exact (perm_insertRecDesc k x (sortRecDesc k xs)).trans (ih.cons x)

theorem pairwise_insertRecDesc (k : Str) (x : Record) (l : List Record)
    (h : l.Pairwise (descBy k)) : (insertRecDesc k x l).Pairwise (descBy k) := by
  induction l with
  | nil => simp [insertRecDesc, descBy]
  | cons y ys ih =>
    unfold insertRecDesc
    rcases List.pairwise_cons.mp h with ⟨hy, hys⟩
    by_cases hc : Dec.le (flamVal y k) (flamVal x k) = true
    · rw [if_pos hc]
      refine List.pairwise_cons.mpr ⟨?_, h⟩
      intro z hz
      rcases List.mem_cons.mp hz with rfl | hz2
      · exact hc
      · exact Dec.le_trans2 _ _ _ (hy z hz2) hc
    · rw [if_neg hc]
      refine List.pairwise_cons.mpr ⟨?_, ih hys⟩
      intro z hz
      have hz2 := (perm_insertRecDesc k x ys).mem_iff.mp hz
      rcases List.mem_cons.mp hz2 with rfl | hz3
      · exact Dec.le_of_not_le _ _ hc
      · exact hy z hz3

theorem pairwise_sortRecDesc (k : Str) (l : List Record) :
    (sortRecDesc k l).Pairwise (descBy k) := by
  induction l with
  | nil => simp [sortRecDesc]
  | cons x xs ih =>
    unfold sortRecDesc
    exact pairwise_insertRecDesc k x (sortRecDesc k xs) ih

theorem flamFilter_nil (k : Str) (v : Dec) : flamFilter k v [] = [] := rfl

theorem flamFilter_cons (k : Str) (v : Dec) (x : Record) (l : List Record) :
    flamFilter k v (x :: l) =
      if Dec.eqv (flamVal x k) v = true then x :: flamFilter k v l else flamFilter k v l := by
  show List.filter _ (x :: l) = _
  rw [List.filter_cons]
  by_cases hx : Dec.eqv (flamVal x k) v = true
  · rw [if_pos (show (fun r => Dec.eqv (flamVal r k) v) x = true from hx), if_pos hx]
    rfl
  · rw [if_neg (show ¬(fun r => Dec.eqv (flamVal r k) v) x = true from hx), if_neg hx]
    rfl

theorem flamFilter_insertRecDesc (k : Str) (v : Dec) (x : Record) (l : List Record) :
    flamFilter k v (insertRecDesc k x l) =
      if Dec.eqv (flamVal x k) v = true then x :: flamFilter k v l else flamFilter k v l := by
  induction l with
  | nil =>
    show flamFilter k v [x] = _
    rw [show flamFilter k v [x] = flamFilter k v (x :: []) from rfl, flamFilter_cons]
  | cons y ys ih =>
    unfold insertRecDesc
    by_cases hc : Dec.le (flamVal y k) (flamVal x k) = true
    · rw [if_pos hc, flamFilter_cons, flamFilter_cons]
    · rw [if_neg hc, flamFilter_cons, ih, flamFilter_cons]
      by_cases hx : Dec.eqv (flamVal x k) v = true
      · by_cases hy : Dec.eqv (flamVal y k) v = true
        · exact absurd (Dec.le_of_eqv_pair _ _ _ hy hx) hc
        · rw [if_neg hy, if_pos hx, if_pos hx, if_neg hy]
      · by_cases hy : Dec.eqv (flamVal y k) v = true
        · rw [if_pos hy, if_neg hx, if_neg hx, if_pos hy]
        · rw [if_neg hy, if_neg hx, if_neg hx, if_neg hy]

theorem flamFilter_sortRecDesc (k : Str) (v : Dec) (l : List Record) :
    flamFilter k v (sortRecDesc k l) = flamFilter k v l := by
  induction l with
  | nil => rfl
  | cons x xs ih =>
    unfold sortRecDesc
    rw [flamFilter_insertRecDesc, ih, flamFilter_cons]

/-! Lemmas about the filter and the writer. -/

theorem filterLoop_eq (k : Str) (t : Dec) (l : List Record) : ∀ acc : List Record,
    filterLoop k t acc l = acc ++ l.filter (fun r => Dec.le t (flamVal r k)) := by
  induction l with
  | nil => intro acc; simp [filterLoop]
  | cons x xs ih =>
    intro acc
    unfold filterLoop
    rw [List.filter_cons]
    by_cases h : Dec.le t (flamVal x k) = true
    · rw [if_pos h, if_pos (by rw [h]), ih, List.append_assoc]
      rfl
    · rw [if_neg h, if_neg (by rw [show Dec.le t (flamVal x k) = false by simpa using h]; simp),
        ih]

theorem foldl_append_map {α β : Type} (f : α → β) (l : List α) : ∀ acc : List β,
    l.foldl (fun a x => a ++ [f x]) acc = acc ++ l.map f := by
  induction l with
  | nil => intro acc; simp
  | cons x xs ih =>
    intro acc
    rw [List.foldl_cons, List.map_cons, ih, List.append_assoc]
    rfl

theorem save_to_csv_eq (first : Record) (rest : List Record) (fn : Str) :
    save_to_csv (first :: rest) fn = ⟨false, some (intercalateComma (keysOf first) ::
      (first :: rest).map (fun item =>
        intercalateComma ((keysOf first).map (fun h => formatValue (getVal item h)))))⟩ := by
  have hinner : ∀ item : Record,
      (keysOf first).foldl (fun vs h => vs ++ [formatValue (getVal item h)]) [] =
        (keysOf first).map (fun h => formatValue (getVal item h)) := by
    intro item
    rw [foldl_append_map (fun h => formatValue (getVal item h)) (keysOf first) []]
    rfl
  have houter : (first :: rest).foldl
      (fun acc item => acc ++ [intercalateComma
        ((keysOf first).foldl (fun vs h => vs ++ [formatValue (getVal item h)]) [])])
      [intercalateComma (keysOf first)] =
      [intercalateComma (keysOf first)] ++ (first :: rest).map (fun item =>
        intercalateComma ((keysOf first).foldl
          (fun vs h => vs ++ [formatValue (getVal item h)]) [])) :=
    foldl_append_map _ _ _
  show SaveResult.mk false (some ((first :: rest).foldl _ [intercalateComma (keysOf first)])) = _
  rw [houter]
  have hmap : (first :: rest).map (fun item => intercalateComma
        ((keysOf first).foldl (fun vs h => vs ++ [formatValue (getVal item h)]) [])) =
      (first :: rest).map (fun item => intercalateComma
        ((keysOf first).map (fun h => formatValue (getVal item h)))) := by
    apply List.map_congr_left
    intro item _
    rw [hinner item]
  rw [hmap]
  rfl

/-! Support lemmas for the claims. -/

theorem mem_read_data (first : Str) (rest : List Str) (r : Record)
    (h : r ∈ (read_csv_file (some (first :: rest))).data) :
    ∃ vs : List Str, vs.length = (splitComma (trimStr first)).length ∧
      r = buildRow (splitComma (trimStr first)) vs ∧ ∀ s ∈ vs, ',' ∉ s := by
  rw [read_csv_data_eq] at h
  obtain ⟨line, _hline, hrow⟩ := List.mem_filterMap.mp h
  by_cases h1 : trimStr line = []
  · rw [rowOf, if_pos h1] at hrow
    cases hrow
  · rw [rowOf, if_neg h1] at hrow
    by_cases h2 : (splitComma (trimStr line)).length = (splitComma (trimStr first)).length
    · rw [if_pos h2] at hrow
      exact ⟨splitComma (trimStr line), h2, (Option.some.inj hrow).symm,
        fun s hs hc => mem_splitComma_no_comma _ s hs hc⟩
    · rw [if_neg h2] at hrow
      cases hrow

theorem buildRow_value_typed (header vals : List Str) : ∀ p ∈ buildRow header vals,
    (isFlamName p.1 = true → ∃ x : Dec, p.2 = Value.flt x) ∧
      (isFlamName p.1 = false → ∃ w : Str, p.2 = Value.str (trimStr w)) := by
  intro p hp
  have hc := buildRow_cellOK header vals p hp
  obtain ⟨p1, p2⟩ := p
  cases p2 with
  | flt x =>
    refine ⟨fun _ => ⟨x, rfl⟩, fun hf => ?_⟩
    have h2 : isFlamName p1 = true := hc.2
    rw [h2] at hf
    cases hf
  | str s =>
    have h2 : isFlamName p1 = false ∧ ∃ w, s = trimStr w := hc.2
    refine ⟨fun hf => ?_, fun _ => ?_⟩
    · rw [h2.1] at hf
      cases hf
    · obtain ⟨w, hw⟩ := h2.2
      exact ⟨w, by rw [hw]⟩

theorem sort_result_mem (data : List Record) (r : Record)
    (h : r ∈ (sort_by_flammability data).result) : r ∈ data := by
  unfold sort_by_flammability at h
  cases hk : findFlamKey data with
  | none => rw [hk] at h; exact h
  | some k =>
    rw [hk] at h
    exact (perm_sortRecDesc k data).mem_iff.mp h

theorem filter_result_mem (data : List Record) (t : Dec) (r : Record)
    (h : r ∈ (filter_dangerous_materials data t).result) : r ∈ data := by
  unfold filter_dangerous_materials at h
  cases hk : findFlamKey data with
  | none => rw [hk] at h; cases h
  | some k =>
    rw [hk] at h
    show r ∈ data
    have h2 : r ∈ List.filter (fun r => Dec.le t (flamVal r k)) data := by
      have h3 : r ∈ [] ++ List.filter (fun r => Dec.le t (flamVal r k)) data := by
        rw [← filterLoop_eq k t data []]
        exact h
      simpa using h3
    exact List.mem_of_mem_filter h2

theorem buildRow_flam_none_lookup (header vals : List Str) (i : Nat)
    (hi : i < header.length) (hlen : vals.length = header.length)
    (hnd : (header.map trimStr).Nodup)
    (hflam : isFlamName (trimStr (header.getD i [])) = true)
    (hfail : parseFloat (trimStr (vals.getD i [])) = none) :
    dlookup (trimStr (header.getD i [])) (buildRow header vals) =
      some (Value.flt ⟨0, 0⟩) := by
  have hz : i < (header.zip vals).length := by
    rw [List.length_zip]
    omega
  have hget : (header.zip vals).get ⟨i, hz⟩ = (header.getD i [], vals.getD i []) := by
    rw [List.get_eq_getElem, List.getElem_zip,
      List.getD_eq_getElem header [] hi, List.getD_eq_getElem vals [] (by omega)]
  have hmem : mkCell (header.getD i []) (vals.getD i []) ∈ buildRow header vals := by
    rw [buildRow_eq_map header vals hnd hlen]
    apply List.mem_map.mpr
    refine ⟨(header.getD i [], vals.getD i []), ?_, rfl⟩
    rw [← hget]
    exact List.get_mem (header.zip vals) i hz

  have he : mkCell (header.getD i []) (vals.getD i []) =
      (trimStr (header.getD i []), Value.flt ⟨0, 0⟩) :=
    mkCell_flam_none _ _ hflam hfail
  rw [he] at hmem
  exact dlookup_of_mem_nodup _ _ (buildRow_keys_nodup header vals) hmem

/-! Claim theorems. -/

/-- C10: on the empty input sequence the column lookup inspects no record,
so both operations take the missing-column branch: sort emits the notice
and returns the empty input unchanged, filter emits the notice and returns
an empty sequence. -/
theorem claim_C10_empty_input (t : Dec) :
    sort_by_flammability [] = ⟨true, []⟩ ∧ filter_dangerous_materials [] t = ⟨true, []⟩ :=
  ⟨rfl, rfl⟩

/-- C7: when no flammability-named column is found by the case-insensitive
match against the two recognized spellings, sort emits a notice and returns
its input unchanged, and filter emits a notice and returns an empty
sequence. -/
theorem claim_C7_missing_column (data : List Record) (t : Dec)
    (h : findFlamKey data = none) :
    sort_by_flammability data = ⟨true, data⟩ ∧
      filter_dangerous_materials data t = ⟨true, []⟩ := by
  constructor
  · unfold sort_by_flammability
    rw [h]
  · unfold filter_dangerous_materials
    rw [h]

theorem claim_C7_witness :
    findFlamKey [[("Substance".data, Value.str "Al".data)]] = none ∧
      sort_by_flammability [[("Substance".data, Value.str "Al".data)]] =
        ⟨true, [[("Substance".data, Value.str "Al".data)]]⟩ ∧
      filter_dangerous_materials [[("Substance".data, Value.str "Al".data)]] ⟨7, 1⟩ =
        ⟨true, []⟩ :=
  ⟨by decide, claim_C7_missing_column [[("Substance".data, Value.str "Al".data)]] ⟨7, 1⟩
    (by decide)⟩

/-- C6: a missing file or any exception while reading is caught and
reported, yielding an empty sequence, and the caller treats an empty load
as terminal: `main` stops before any downstream stage. -/
theorem claim_C6_read_failure :
    read_csv_file none = ⟨true, []⟩ ∧
      ∀ file : Option (List Str), (read_csv_file file).data = [] →
        mainProgram file = ⟨true, none⟩ := by
  refine ⟨rfl, ?_⟩
  intro file h
  unfold mainProgram
  rw [h]

theorem claim_C6_witness :
    read_csv_file none = ⟨true, []⟩ ∧ mainProgram none = ⟨true, none⟩ :=
  ⟨claim_C6_read_failure.1, claim_C6_read_failure.2 none (by decide)⟩

/-- C4: the loader turns exactly the non-blank rows whose comma-split token
count equals the header's field count into records, in file order, and
drops the rest; in particular every non-blank row with a matching token
count contributes a record. -/
theorem claim_C4_row_filtering (first : Str) (rest : List Str) :
    (read_csv_file (some (first :: rest))).data =
        rest.filterMap (rowOf (splitComma (trimStr first))) ∧
      ∀ line ∈ rest, trimStr line ≠ [] →
        (splitComma (trimStr line)).length = (splitComma (trimStr first)).length →
        buildRow (splitComma (trimStr first)) (splitComma (trimStr line)) ∈
          (read_csv_file (some (first :: rest))).data := by
  refine ⟨read_csv_data_eq first rest, ?_⟩
  intro line hline h1 h2
  rw [read_csv_data_eq first rest]
  apply List.mem_filterMap.mpr
  exact ⟨line, hline, by rw [rowOf, if_neg h1, if_pos h2]⟩

theorem claim_C4_witness :
    (read_csv_file (some ["a,b".data, "1,2".data, "bad".data])).data =
        ["1,2".data, "bad".data].filterMap (rowOf (splitComma (trimStr "a,b".data))) ∧
      buildRow (splitComma (trimStr "a,b".data)) (splitComma (trimStr "1,2".data)) ∈
        (read_csv_file (some ["a,b".data, "1,2".data, "bad".data])).data :=
  ⟨(claim_C4_row_filtering "a,b".data ["1,2".data, "bad".data]).1,
    (claim_C4_row_filtering "a,b".data ["1,2".data, "bad".data]).2 "1,2".data
      (by decide) (by decide) (by decide)⟩

/-- C5: a non-blank row with the right token count whose flammability-named
field fails float parsing is still loaded (the row is not dropped and no
error escapes), and the record stores 0.0 for that field. -/
theorem claim_C5_unparsable_flammability (first : Str) (rest : List Str) (line : Str)
    (i : Nat) (hline : line ∈ rest) (hblank : trimStr line ≠ [])
    (hcount : (splitComma (trimStr line)).length = (splitComma (trimStr first)).length)
    (hi : i < (splitComma (trimStr first)).length)
    (hnd : ((splitComma (trimStr first)).map trimStr).Nodup)
    (hflam : isFlamName (trimStr ((splitComma (trimStr first)).getD i [])) = true)
    (hfail : parseFloat (trimStr ((splitComma (trimStr line)).getD i [])) = none) :
    buildRow (splitComma (trimStr first)) (splitComma (trimStr line)) ∈
        (read_csv_file (some (first :: rest))).data ∧
      dlookup (trimStr ((splitComma (trimStr first)).getD i []))
        (buildRow (splitComma (trimStr first)) (splitComma (trimStr line))) =
          some (Value.flt ⟨0, 0⟩) := by
  constructor
  · rw [read_csv_data_eq first rest]
    apply List.mem_filterMap.mpr
    exact ⟨line, hline, by rw [rowOf, if_neg hblank, if_pos hcount]⟩
  · exact buildRow_flam_none_lookup _ _ i hi hcount hnd hflam hfail

theorem claim_C5_witness :
    buildRow (splitComma (trimStr "name,flammability".data))
        (splitComma (trimStr "x,abc".data)) ∈
      (read_csv_file (some ["name,flammability".data, "x,abc".data])).data ∧
    dlookup (trimStr ((splitComma (trimStr "name,flammability".data)).getD 1 []))
        (buildRow (splitComma (trimStr "name,flammability".data))
          (splitComma (trimStr "x,abc".data))) = some (Value.flt ⟨0, 0⟩) :=
  claim_C5_unparsable_flammability "name,flammability".data ["x,abc".data] "x,abc".data 1
    (by decide) (by decide) (by decide) (by decide) (by decide) (by decide) (by decide)

/-- C2: on a dataset with a flammability-named column (holding floats, as
the data model guarantees), sort reports no notice and returns a
permutation of the input ordered descending by flammability, and the sort
is stable: the records of any one flammability value keep their relative
input order. -/
theorem claim_C2_sort_stable (data : List Record) (k : Str)
    (hk : findFlamKey data = some k)
    (_hfloat : ∀ r ∈ data, ∃ x : Dec, dlookup k r = some (Value.flt x)) :
    (sort_by_flammability data).noticeMissingColumn = false ∧
      List.Perm (sort_by_flammability data).result data ∧
      (sort_by_flammability data).result.Pairwise (descBy k) ∧
      ∀ v : Dec, flamFilter k v (sort_by_flammability data).result = flamFilter k v data := by
  have hs : sort_by_flammability data = ⟨false, sortRecDesc k data⟩ := by
    unfold sort_by_flammability
    rw [hk]
  rw [hs]
  exact ⟨rfl, perm_sortRecDesc k data, pairwise_sortRecDesc k data,
    fun v => flamFilter_sortRecDesc k v data⟩

theorem claim_C2_witness :
    findFlamKey sampleData = some "Flammability".data ∧
      (sort_by_flammability sampleData).result = [sampleO2, sampleH2, sampleAl] ∧
      (sort_by_flammability sampleData).noticeMissingColumn = false ∧
      List.Perm (sort_by_flammability sampleData).result sampleData ∧
      (sort_by_flammability sampleData).result.Pairwise (descBy "Flammability".data) ∧
      ∀ v : Dec, flamFilter "Flammability".data v (sort_by_flammability sampleData).result =
        flamFilter "Flammability".data v sampleData := by
  have hfloat : ∀ r ∈ sampleData, ∃ x : Dec,
      dlookup "Flammability".data r = some (Value.flt x) := by
    intro r hr
    rcases List.mem_cons.mp hr with rfl | hr
    · exact ⟨⟨1, 1⟩, by decide⟩
    rcases List.mem_cons.mp hr with rfl | hr
    · exact ⟨⟨9, 1⟩, by decide⟩
    rcases List.mem_cons.mp hr with rfl | hr
    · exact ⟨⟨7, 1⟩, by decide⟩
    · exact absurd hr (List.not_mem_nil r)
  have h := claim_C2_sort_stable sampleData "Flammability".data (by decide) hfloat
  exact ⟨by decide, by decide, h.1, h.2.1, h.2.2.1, h.2.2.2⟩

/-- C3: on a dataset with a flammability-named column, filter reports no
notice and returns exactly the subsequence of records whose flammability is
at least the threshold, inclusively, preserving input order; with threshold
0.7 on the values [0.7, 0.69999, 1.0] it keeps 0.7 and 1.0 and excludes
0.69999. -/
theorem claim_C3_filter_threshold (data : List Record) (k : Str) (t : Dec)
    (hk : findFlamKey data = some k)
    (_hfloat : ∀ r ∈ data, ∃ x : Dec, dlookup k r = some (Value.flt x)) :
    filter_dangerous_materials data t =
        ⟨false, data.filter (fun r => Dec.le t (flamVal r k))⟩ ∧
      List.Sublist (filter_dangerous_materials data t).result data ∧
      (∀ r ∈ data, Dec.le t (flamVal r k) = true →
        r ∈ (filter_dangerous_materials data t).result) ∧
      (∀ r ∈ (filter_dangerous_materials data t).result,
        r ∈ data ∧ Dec.le t (flamVal r k) = true) ∧
      (filter_dangerous_materials thresholdData ⟨7, 1⟩).result = [recA, recC] := by
  have hf : filter_dangerous_materials data t =
      ⟨false, data.filter (fun r => Dec.le t (flamVal r k))⟩ := by
    unfold filter_dangerous_materials
    rw [hk]
    show OpResult.mk false (filterLoop k t [] data) = _
    rw [filterLoop_eq k t data []]
    rfl
  refine ⟨hf, ?_, ?_, ?_, by decide⟩
  · rw [hf]
    exact List.filter_sublist data
  · intro r hr hle
    rw [hf]
    show r ∈ List.filter (fun r => Dec.le t (flamVal r k)) data
    exact List.mem_filter.mpr ⟨hr, hle⟩
  · intro r hr
    rw [hf] at hr
    have h2 := List.mem_filter.mp hr
    exact ⟨h2.1, h2.2⟩

theorem claim_C3_witness :
    findFlamKey thresholdData = some "flammability".data ∧
      filter_dangerous_materials thresholdData ⟨7, 1⟩ = ⟨false, thresholdData.filter
        (fun r => Dec.le ⟨7, 1⟩ (flamVal r "flammability".data))⟩ ∧
      (filter_dangerous_materials thresholdData ⟨7, 1⟩).result = [recA, recC] := by
  have hfloat : ∀ r ∈ thresholdData, ∃ x : Dec,
      dlookup "flammability".data r = some (Value.flt x) := by
    intro r hr
    rcases List.mem_cons.mp hr with rfl | hr
    · exact ⟨⟨7, 1⟩, by decide⟩
    rcases List.mem_cons.mp hr with rfl | hr
    · exact ⟨⟨69999, 5⟩, by decide⟩
    rcases List.mem_cons.mp hr with rfl | hr
    · exact ⟨⟨10, 1⟩, by decide⟩
    · exact absurd hr (List.not_mem_nil r)
  have h := claim_C3_filter_threshold thresholdData "flammability".data ⟨7, 1⟩
    (by decide) hfloat
  exact ⟨by decide, h.1, h.2.2.2.2⟩

/-- C8: the writer does nothing but emit a notice on an empty sequence; on
a non-empty sequence it writes the first record's keys in order as the
comma-joined header, then each record's values in that key order, floats
formatted with exactly two decimal digits and all other values via their
plain string form. -/
theorem claim_C8_writer (data : List Record) (fn : Str) :
    (data = [] → save_to_csv data fn = ⟨true, none⟩) ∧
      (∀ first rest, data = first :: rest →
        save_to_csv data fn = ⟨false, some (intercalateComma (keysOf first) ::
          data.map (fun item => intercalateComma
            ((keysOf first).map (fun h => formatValue (getVal item h)))))⟩) ∧
      (∀ x : Dec, ∃ s : Str, ∃ d1 d2 : Char,
        formatValue (Value.flt x) = s ++ ['.', d1, d2] ∧
          d1.isDigit = true ∧ d2.isDigit = true) ∧
      ∀ s : Str, formatValue (Value.str s) = s := by
  refine ⟨?_, ?_, ?_, fun s => rfl⟩
  · intro h
    subst h
    rfl
  · intro first rest h
    subst h
    exact save_to_csv_eq first rest fn
  · intro x
    refine ⟨(if rhe100 x < 0 then ['-'] else []) ++ natToDec ((rhe100 x).natAbs / 100),
      digitChar ((rhe100 x).natAbs / 10 % 10), digitChar ((rhe100 x).natAbs % 10),
      ?_, digitChar_isDigit _ (by omega), digitChar_isDigit _ (by omega)⟩
    show (if rhe100 x < 0 then ['-'] else []) ++ natToDec ((rhe100 x).natAbs / 100) ++
        '.' :: [digitChar ((rhe100 x).natAbs / 10 % 10), digitChar ((rhe100 x).natAbs % 10)] = _
    rfl

theorem claim_C8_witness :
    save_to_csv [] "out".data = ⟨true, none⟩ ∧
      save_to_csv [recA] "out".data = ⟨false, some (intercalateComma (keysOf recA) ::
        [recA].map (fun item => intercalateComma
          ((keysOf recA).map (fun h => formatValue (getVal item h)))))⟩ ∧
      save_to_csv [recA] "out".data =
        ⟨false, some ["name,flammability".data, "a,0.70".data]⟩ :=
  ⟨(claim_C8_writer [] "out".data).1 rfl,
    (claim_C8_writer [recA] "out".data).2.1 recA [] rfl, by decide⟩

/-- C9: every loaded dataset satisfies the data-model invariant: all
records share one key list (the trimmed header names, verbatim when those
are distinct), the value under a flammability-named key is always a float,
every other value is a trimmed string; sort and filter only reorder or
select records, so they preserve the invariant. -/
theorem claim_C9_invariant (first : Str) (rest : List Str) :
    (∀ r ∈ (read_csv_file (some (first :: rest))).data,
        keysOf r = addNewKeys [] ((splitComma (trimStr first)).map trimStr)) ∧
      (((splitComma (trimStr first)).map trimStr).Nodup →
        ∀ r ∈ (read_csv_file (some (first :: rest))).data,
          keysOf r = (splitComma (trimStr first)).map trimStr) ∧
      (∀ r ∈ (read_csv_file (some (first :: rest))).data, ∀ p ∈ r,
        (isFlamName p.1 = true → ∃ x : Dec, p.2 = Value.flt x) ∧
          (isFlamName p.1 = false → ∃ w : Str, p.2 = Value.str (trimStr w))) ∧
      (∀ r ∈ (sort_by_flammability (read_csv_file (some (first :: rest))).data).result,
        r ∈ (read_csv_file (some (first :: rest))).data) ∧
      ∀ t : Dec, ∀ r ∈ (filter_dangerous_materials
          (read_csv_file (some (first :: rest))).data t).result,
        r ∈ (read_csv_file (some (first :: rest))).data := by
  have hkeys : ∀ r ∈ (read_csv_file (some (first :: rest))).data,
      keysOf r = addNewKeys [] ((splitComma (trimStr first)).map trimStr) := by
    intro r hr
    obtain ⟨vs, hlen, rfl, _⟩ := mem_read_data first rest r hr
    exact keysOf_buildRow _ _ hlen
  refine ⟨hkeys, ?_, ?_, fun r hr => sort_result_mem _ r hr,
    fun t r hr => filter_result_mem _ t r hr⟩
  · intro hnd r hr
    rw [hkeys r hr, addNewKeys_eq_self _ hnd]
  · intro r hr
    obtain ⟨vs, hlen, rfl, _⟩ := mem_read_data first rest r hr
    exact buildRow_value_typed _ _

theorem claim_C9_witness :
    (∀ r ∈ (read_csv_file (some ["a,flammability".data, "x,0.5".data])).data,
        keysOf r = addNewKeys []
          ((splitComma (trimStr "a,flammability".data)).map trimStr)) ∧
      (∀ r ∈ (read_csv_file (some ["a,flammability".data, "x,0.5".data])).data,
        keysOf r = (splitComma (trimStr "a,flammability".data)).map trimStr) ∧
      ∀ r ∈ (read_csv_file (some ["a,flammability".data, "x,0.5".data])).data, ∀ p ∈ r,
        (isFlamName p.1 = true → ∃ x : Dec, p.2 = Value.flt x) ∧
          (isFlamName p.1 = false → ∃ w : Str, p.2 = Value.str (trimStr w)) := by
  have h := claim_C9_invariant "a,flammability".data ["x,0.5".data]
  exact ⟨h.1, h.2.1 (by decide), h.2.2.1⟩

/-! Support lemmas for the round-trip claim. -/

theorem toRat_rhe (n : Int) : toRat ⟨n, 2⟩ = (n : ℚ) / 100 := by
  unfold toRat
  norm_num [pow10]

theorem Dec.le_70_rhe (x : Dec) (h : Dec.le ⟨7, 1⟩ x = true) :
    Dec.le ⟨7, 1⟩ ⟨rhe100 x, 2⟩ = true := by
  rw [Dec.le_iff] at h ⊢
  have h7 : toRat ⟨7, 1⟩ = 7 / 10 := by unfold toRat; norm_num [pow10]
  rw [h7] at h ⊢
  rw [toRat_rhe, rhe100_eq]
  have h70 : ((70 : Int) : ℚ) ≤ 100 * toRat x := by push_cast; linarith
  have := rheRat_ge (100 * toRat x) 70 h70
  have hcast : (70 : ℚ) ≤ (rheRat (100 * toRat x) : ℚ) := by exact_mod_cast this
  linarith

theorem Dec.le_rhe_mono (a b : Dec) (h : Dec.le a b = true) :
    Dec.le ⟨rhe100 a, 2⟩ ⟨rhe100 b, 2⟩ = true := by
  rw [Dec.le_iff] at h ⊢
  rw [toRat_rhe, toRat_rhe, rhe100_eq, rhe100_eq]
  have hm : rheRat (100 * toRat a) ≤ rheRat (100 * toRat b) :=
    rheRat_mono (by linarith)
  have hc : ((rheRat (100 * toRat a) : Int) : ℚ) ≤ ((rheRat (100 * toRat b) : Int) : ℚ) := by
    exact_mod_cast hm
  linarith

theorem keysOf_roundRecord (r : Record) : keysOf (roundRecord r) = keysOf r := by
  unfold keysOf roundRecord
  rw [List.map_map]
  rfl

theorem dlookup_roundRecord (k : Str) (r : Record) :
    dlookup k (roundRecord r) = (dlookup k r).map roundValue := by
  induction r with
  | nil => rfl
  | cons p ps ih =>
    show dlookup k ((p.1, roundValue p.2) :: roundRecord ps) = _
    unfold dlookup
    by_cases hp : p.1 = k
    · rw [if_pos hp, if_pos hp]
      rfl
    · rw [if_neg hp, if_neg hp, ih]

theorem flamVal_roundRecord (k : Str) (r : Record) (x : Dec)
    (h : dlookup k r = some (Value.flt x)) :
    flamVal (roundRecord r) k = ⟨rhe100 x, 2⟩ := by
  unfold flamVal
  rw [dlookup_roundRecord, h]
  rfl

theorem filterMap_sublist_map {α β : Type} (f : α → Option β) (g : α → β) (l : List α)
    (h : ∀ x ∈ l, f x = none ∨ f x = some (g x)) :
    List.Sublist (l.filterMap f) (l.map g) := by
  induction l with
  | nil => simp
  | cons x xs ih =>
    rw [List.filterMap_cons, List.map_cons]
    rcases h x (List.mem_cons_self x xs) with hx | hx
    · rw [hx]
      exact (ih (fun y hy => h y (List.mem_cons_of_mem x hy))).cons (g x)
    · rw [hx]
      exact (ih (fun y hy => h y (List.mem_cons_of_mem x hy))).cons₂ (g x)

theorem findFlamKey_some (data : List Record) (k : Str) (h : findFlamKey data = some k) :
    isFlamName k = true ∧ ∃ r rs, data = r :: rs ∧ (keysOf r).find? isFlamName = some k := by
  cases data with
  | nil => cases h
  | cons r rs =>
    have h2 : (match (keysOf r).find? isFlamName with
        | some k => some k
        | none => none) = some k := h
    cases hf : (keysOf r).find? isFlamName with
    | none => rw [hf] at h2; cases h2
    | some k2 =>
      rw [hf] at h2
      have hk : k2 = k := Option.some.inj h2
      subst hk
      exact ⟨List.find?_some hf, r, rs, rfl, hf⟩

theorem findFlamKey_cons_of_keys (r : Record) (rs : List Record) (k : Str)
    (hf : (keysOf r).find? isFlamName = some k) :
    findFlamKey (r :: rs) = some k := by
  show (match (keysOf r).find? isFlamName with
    | some k => some k
    | none => none) = some k
  rw [hf]

theorem flam_lookup (r : Record) (k : Str) (hK : k ∈ keysOf r)
    (hok : ∀ p ∈ r, cellOK p) (hf : isFlamName k = true) :
    ∃ x : Dec, dlookup k r = some (Value.flt x) := by
  obtain ⟨v, hv⟩ := dlookup_isSome_of_mem_keys k r hK
  have hmem : (k, v) ∈ r := dlookup_mem k v r hv
  cases v with
  | flt x => exact ⟨x, hv⟩
  | str s =>
    have hc : isFlamName k = false ∧ ∃ w, s = trimStr w := (hok (k, Value.str s) hmem).2
    rw [hf] at hc
    cases hc.1

theorem reload_header (K : List Str) (hne : K ≠ []) (htf : ∀ x ∈ K, trimStr x = x)
    (hnc : ∀ x ∈ K, ',' ∉ x) :
    splitComma (trimStr (intercalateComma K)) = K := by
  rw [intercalateComma_trimFixed K htf, splitComma_intercalate K hne hnc]

theorem read_record_props (first : Str) (rest : List Str) (r : Record)
    (h : r ∈ (read_csv_file (some (first :: rest))).data) :
    keysOf r = addNewKeys [] ((splitComma (trimStr first)).map trimStr) ∧
      (keysOf r).Nodup ∧ (∀ p ∈ r, cellOK p) ∧ ∀ p ∈ r, cellNoComma p := by
  obtain ⟨vs, hlen, rfl, hvnc⟩ := mem_read_data first rest r h
  refine ⟨keysOf_buildRow _ _ hlen, buildRow_keys_nodup _ _, buildRow_cellOK _ _, ?_⟩
  rw [buildRow_eq_foldl]
  apply foldl_rowStep_noComma
  · intro p hp
    obtain ⟨h1, h2⟩ := List.of_mem_zip hp
    exact ⟨mem_splitComma_no_comma _ _ h1, hvnc _ h2⟩
  · intro p hp
    exact absurd hp (List.not_mem_nil p)

theorem sort_result_eq (data : List Record) (k : Str) (hk : findFlamKey data = some k) :
    (sort_by_flammability data).result = sortRecDesc k data := by
  unfold sort_by_flammability
  rw [hk]

theorem filter_result_eq (data : List Record) (t : Dec) (k : Str)
    (hk : findFlamKey data = some k) :
    (filter_dangerous_materials data t).result =
      data.filter (fun r => Dec.le t (flamVal r k)) := by
  unfold filter_dangerous_materials
  rw [hk]
  show filterLoop k t [] data = _
  rw [filterLoop_eq]
  rfl

theorem reload_record (r : Record) (hnd : (keysOf r).Nodup) (hok : ∀ p ∈ r, cellOK p) :
    buildRow (keysOf r) ((keysOf r).map (fun h => formatValue (getVal r h))) = roundRecord r := by
  have htf : ∀ x ∈ keysOf r, trimStr x = x := by
    intro x hx
    obtain ⟨p, hp, rfl⟩ := List.mem_map.mp hx
    exact (hok p hp).1
  have hmapid : (keysOf r).map trimStr = keysOf r := by
    have h1 : (keysOf r).map trimStr = (keysOf r).map id := List.map_congr_left htf
    rw [h1, List.map_id]
  have hnd2 : ((keysOf r).map trimStr).Nodup := by rw [hmapid]; exact hnd
  have hlen : ((keysOf r).map (fun h => formatValue (getVal r h))).length = (keysOf r).length :=
    List.length_map _ _
  rw [buildRow_eq_map _ _ hnd2 hlen, zip_map_self, List.map_map]
  show (r.map Prod.fst).map _ = roundRecord r
  rw [List.map_map]
  unfold roundRecord
  apply List.map_congr_left
  intro p hp
  show mkCell p.1 (formatValue (getVal r p.1)) = (p.1, roundValue p.2)
  have hget : getVal r p.1 = p.2 := by
    unfold getVal
    rw [dlookup_of_mem_nodup r p hnd hp]
  have hkeytf : trimStr p.1 = p.1 := (hok p hp).1
  rw [hget]
  obtain ⟨p1, p2⟩ := p
  cases p2 with
  | flt x =>
    have hf : isFlamName p1 = true := (hok (p1, Value.flt x) hp).2
    show mkCell p1 (formatFloat2 x) = (p1, Value.flt ⟨rhe100 x, 2⟩)
    rw [mkCell_flam_some p1 (formatFloat2 x) ⟨rhe100 x, 2⟩
      (by rw [show trimStr p1 = p1 from hkeytf]; exact hf)
      (by rw [show trimStr (formatFloat2 x) = formatFloat2 x from formatFloat2_trimFixed x]
          exact formatFloat2_parse x)]
    rw [show trimStr p1 = p1 from hkeytf]
  | str s =>
    have hc : isFlamName p1 = false ∧ ∃ w, s = trimStr w := (hok (p1, Value.str s) hp).2
    obtain ⟨w, hw⟩ := hc.2
    show mkCell p1 s = (p1, Value.str s)
    rw [mkCell_str p1 s (by rw [show trimStr p1 = p1 from hkeytf]; exact hc.1)]
    rw [show trimStr p1 = p1 from hkeytf, show trimStr s = s from by rw [hw, trimStr_idem]]

theorem reload_line (K : List Str) (r : Record) (hkr : keysOf r = K)
    (hnd : (keysOf r).Nodup) (hok : ∀ p ∈ r, cellOK p) (hnc : ∀ p ∈ r, cellNoComma p) :
    rowOf K (intercalateComma (K.map (fun h => formatValue (getVal r h)))) = none ∨
      rowOf K (intercalateComma (K.map (fun h => formatValue (getVal r h)))) =
        some (roundRecord r) := by
  subst hkr
  have hvtf : ∀ v ∈ (keysOf r).map (fun h => formatValue (getVal r h)), trimStr v = v := by
    intro v hv
    obtain ⟨h0, hh0, rfl⟩ := List.mem_map.mp hv
    obtain ⟨u, hu⟩ := dlookup_isSome_of_mem_keys h0 r hh0
    have hmem := dlookup_mem h0 u r hu
    have hgv : getVal r h0 = u := by
      unfold getVal
      rw [hu]
    rw [hgv]
    cases u with
    | flt x => exact formatFloat2_trimFixed x
    | str s =>
      obtain ⟨w, hw⟩ := (hok (h0, Value.str s) hmem).2.2
      show trimStr s = s
      rw [hw, trimStr_idem]
  have hvnc : ∀ v ∈ (keysOf r).map (fun h => formatValue (getVal r h)), ',' ∉ v := by
    intro v hv
    obtain ⟨h0, hh0, rfl⟩ := List.mem_map.mp hv
    obtain ⟨u, hu⟩ := dlookup_isSome_of_mem_keys h0 r hh0
    have hmem := dlookup_mem h0 u r hu
    have hgv : getVal r h0 = u := by
      unfold getVal
      rw [hu]
    rw [hgv]
    cases u with
    | flt x => exact formatFloat2_no_comma x
    | str s => exact (hnc (h0, Value.str s) hmem).2
  by_cases hb : intercalateComma ((keysOf r).map (fun h => formatValue (getVal r h))) = []
  · left
    rw [rowOf, if_pos (by rw [intercalateComma_trimFixed _ hvtf]; exact hb)]
  · right
    have hvsne : (keysOf r).map (fun h => formatValue (getVal r h)) ≠ [] := by
      intro he
      rw [he] at hb
      exact hb rfl
    rw [rowOf, if_neg (by rw [intercalateComma_trimFixed _ hvtf]; exact hb)]
    rw [intercalateComma_trimFixed _ hvtf, splitComma_intercalate _ hvsne hvnc]
    rw [if_pos (List.length_map _ _)]
    rw [reload_record r hnd hok]

theorem pipeline_written_struct (f : List Str) (out : List Str)
    (hw : (pipeline f).written = some out) :
    ∃ k d0 ds,
      findFlamKey (sort_by_flammability (read_csv_file (some f)).data).result = some k ∧
      (filter_dangerous_materials (sort_by_flammability (read_csv_file (some f)).data).result
        ⟨7, 1⟩).result = d0 :: ds ∧
      out = intercalateComma (keysOf d0) :: (d0 :: ds).map (fun item =>
        intercalateComma ((keysOf d0).map (fun h => formatValue (getVal item h)))) := by
  cases hd : (filter_dangerous_materials
      (sort_by_flammability (read_csv_file (some f)).data).result ⟨7, 1⟩).result with
  | nil =>
    exfalso
    unfold pipeline at hw
    rw [hd] at hw
    cases hw
  | cons d0 ds =>
    cases hkf : findFlamKey (sort_by_flammability (read_csv_file (some f)).data).result with
    | none =>
      exfalso
      have hres : (filter_dangerous_materials
          (sort_by_flammability (read_csv_file (some f)).data).result ⟨7, 1⟩).result = [] := by
        unfold filter_dangerous_materials
        rw [hkf]
      rw [hd] at hres
      cases hres
    | some k =>
      refine ⟨k, d0, ds, rfl, rfl, ?_⟩
      unfold pipeline at hw
      rw [hd, save_to_csv_eq d0 ds] at hw
      exact (Option.some.inj hw).symm

/-- C1 (amended): when the pipeline writes an output file, reloading that
output yields a sequence of records each of which is an original record
with its float fields rounded to two decimals; every reloaded record has
flammability at least 0.7 at the flammability key, and the sequence is
ordered descending by flammability. -/
theorem claim_C1_roundtrip_amended (f : List Str) (out : List Str)
    (hw : (pipeline f).written = some out) :
    ∃ k : Str, isFlamName k = true ∧
      (∀ r ∈ (read_csv_file (some out)).data,
        (∃ r0 ∈ (read_csv_file (some f)).data, r = roundRecord r0) ∧
          Dec.le ⟨7, 1⟩ (flamVal r k) = true) ∧
      (read_csv_file (some out)).data.Pairwise (descBy k) := by
  obtain ⟨k, d0, ds, hkf, hd, hout⟩ := pipeline_written_struct f out hw
  cases f with
  | nil =>
    exfalso
    have hres : (filter_dangerous_materials
        (sort_by_flammability (read_csv_file (some ([] : List Str))).data).result
        ⟨7, 1⟩).result = [] := rfl
    rw [hd] at hres
    cases hres
  | cons first rest =>
  have hGfilter : (filter_dangerous_materials
      (sort_by_flammability (read_csv_file (some (first :: rest))).data).result ⟨7, 1⟩).result =
        (sort_by_flammability (read_csv_file (some (first :: rest))).data).result.filter
          (fun r => Dec.le ⟨7, 1⟩ (flamVal r k)) :=
    filter_result_eq _ ⟨7, 1⟩ k hkf
  obtain ⟨hkflam, s0, srest, hS, hfind0⟩ := findFlamKey_some _ k hkf
  have hs0D : s0 ∈ (read_csv_file (some (first :: rest))).data :=
    sort_result_mem _ s0 (hS ▸ List.mem_cons_self s0 srest)
  have hkeys_s0 := (read_record_props first rest s0 hs0D).1
  have hfindK : (addNewKeys [] ((splitComma (trimStr first)).map trimStr)).find? isFlamName =
      some k := by
    rw [← hkeys_s0]
    exact hfind0
  have hkK : k ∈ addNewKeys [] ((splitComma (trimStr first)).map trimStr) :=
    List.mem_of_find?_eq_some hfindK
  -- the original data is non-empty and its key search finds the same key
  cases hD : (read_csv_file (some (first :: rest))).data with
  | nil =>
    exfalso
    rw [hD] at hS
    have hSnil : (sort_by_flammability ([] : List Record)).result = [] := rfl
    rw [hSnil] at hS
    cases hS
  | cons r0 rs0 =>
  have hkeys_r0 := (read_record_props first rest r0 (hD ▸ List.mem_cons_self r0 rs0)).1
  have hfkD : findFlamKey (read_csv_file (some (first :: rest))).data = some k := by
    rw [hD]
    apply findFlamKey_cons_of_keys
    rw [hkeys_r0]
    exact hfindK
  have hSsort : (sort_by_flammability (read_csv_file (some (first :: rest))).data).result =
      sortRecDesc k (read_csv_file (some (first :: rest))).data :=
    sort_result_eq _ k hfkD
  have hSpair : (sort_by_flammability
      (read_csv_file (some (first :: rest))).data).result.Pairwise (descBy k) := by
    rw [hSsort]
    exact pairwise_sortRecDesc k _
  have hGpair : (d0 :: ds).Pairwise (descBy k) := by
    rw [← hd, hGfilter]
    exact List.Pairwise.sublist (List.filter_sublist _) hSpair
  have hGmem : ∀ r ∈ d0 :: ds, r ∈ (read_csv_file (some (first :: rest))).data ∧
      Dec.le ⟨7, 1⟩ (flamVal r k) = true := by
    intro r hr
    rw [← hd, hGfilter] at hr
    have h2 := List.mem_filter.mp hr
    exact ⟨sort_result_mem _ r h2.1, h2.2⟩
  have hflamD : ∀ r ∈ (read_csv_file (some (first :: rest))).data,
      ∃ x : Dec, dlookup k r = some (Value.flt x) := by
    intro r hr
    obtain ⟨hK, _, hok, _⟩ := read_record_props first rest r hr
    exact flam_lookup r k (hK ▸ hkK) hok hkflam
  -- the reload of the written file
  have hd0D := (hGmem d0 (List.mem_cons_self d0 ds)).1
  obtain ⟨hkeys_d0, hnd_d0, hok_d0, hnc_d0⟩ := read_record_props first rest d0 hd0D
  have hKne : keysOf d0 ≠ [] := by
    rw [hkeys_d0]
    cases hsp : splitComma (trimStr first) with
    | nil => exact absurd hsp (splitComma_ne_nil _)
    | cons hh ht =>
      rw [List.map_cons]
      exact addNewKeys_cons_ne_nil _ _
  have hKtf : ∀ x ∈ keysOf d0, trimStr x = x := by
    intro x hx
    obtain ⟨p, hp, rfl⟩ := List.mem_map.mp hx
    exact (hok_d0 p hp).1
  have hKnc : ∀ x ∈ keysOf d0, ',' ∉ x := by
    intro x hx
    obtain ⟨p, hp, rfl⟩ := List.mem_map.mp hx
    exact (hnc_d0 p hp).1
  have hheader : splitComma (trimStr (intercalateComma (keysOf d0))) = keysOf d0 :=
    reload_header (keysOf d0) hKne hKtf hKnc
  have hreload : (read_csv_file (some out)).data =
      (d0 :: ds).filterMap (fun item =>
        rowOf (keysOf d0) (intercalateComma
          ((keysOf d0).map (fun h => formatValue (getVal item h))))) := by
    rw [hout, read_csv_data_eq, hheader, List.filterMap_map]
    rfl
  have hsub : List.Sublist (read_csv_file (some out)).data ((d0 :: ds).map roundRecord) := by
    rw [hreload]
    apply filterMap_sublist_map
    intro item hitem
    obtain ⟨hkeys_i, hnd_i, hok_i, hnc_i⟩ :=
      read_record_props first rest item (hGmem item hitem).1
    exact reload_line (keysOf d0) item (by rw [hkeys_i, hkeys_d0]) hnd_i hok_i hnc_i
  refine ⟨k, hkflam, ?_, ?_⟩
  · intro r hr
    have hr2 := hsub.subset hr
    obtain ⟨item, hitem, rfl⟩ := List.mem_map.mp hr2
    obtain ⟨hitemD, hitemle⟩ := hGmem item hitem
    obtain ⟨x, hx⟩ := hflamD item hitemD
    have hfv : flamVal item k = x := by
      unfold flamVal
      rw [hx]
    refine ⟨⟨item, hD ▸ hitemD, rfl⟩, ?_⟩
    rw [flamVal_roundRecord k item x hx]
    rw [hfv] at hitemle
    exact Dec.le_70_rhe x hitemle
  · apply List.Pairwise.sublist hsub
    rw [List.pairwise_map]
    apply List.Pairwise.imp_of_mem ?_ hGpair
    intro a b ha hb hab
    obtain ⟨xa, hxa⟩ := hflamD a (hGmem a ha).1
    obtain ⟨xb, hxb⟩ := hflamD b (hGmem b hb).1
    show Dec.le (flamVal (roundRecord b) k) (flamVal (roundRecord a) k) = true
    rw [flamVal_roundRecord k a xa hxa, flamVal_roundRecord k b xb hxb]
    apply Dec.le_rhe_mono
    have hab2 : Dec.le (flamVal b k) (flamVal a k) = true := hab
    rw [show flamVal a k = xa from by unfold flamVal; rw [hxa],
      show flamVal b k = xb from by unfold flamVal; rw [hxb]] at hab2
    exact hab2

/-- C1 (counterexample to the claim as stated): on the well-formed input
with flammability 0.756 the pipeline writes an output, yet reloading it
yields a record that matches no original record — its flammability was
rounded to 0.76 by the two-decimal write format — so the reloaded sequence
is not a subset of the original records. -/
theorem claim_C1_counterexample :
    (pipeline ["Substance,Flammability".data, "X,0.756".data]).written =
        some ["Substance,Flammability".data, "X,0.76".data] ∧
      ∃ r ∈ (read_csv_file (some ["Substance,Flammability".data, "X,0.76".data])).data,
        ∀ r0 ∈ (read_csv_file (some ["Substance,Flammability".data, "X,0.756".data])).data,
          recordEqv r r0 = false ∧ r ≠ r0 := by
  decide

theorem claim_C1_witness :
    ∃ k : Str, isFlamName k = true ∧
      (∀ r ∈ (read_csv_file (some ["Substance,Flammability".data, "O2,0.90".data,
          "H2,0.70".data])).data,
        (∃ r0 ∈ (read_csv_file (some ["Substance,Flammability".data, "Al,0.1".data,
            "O2,0.9".data, "H2,0.7".data])).data, r = roundRecord r0) ∧
          Dec.le ⟨7, 1⟩ (flamVal r k) = true) ∧
      (read_csv_file (some ["Substance,Flammability".data, "O2,0.90".data,
        "H2,0.70".data])).data.Pairwise (descBy k) :=
  claim_C1_roundtrip_amended
    ["Substance,Flammability".data, "Al,0.1".data, "O2,0.9".data, "H2,0.7".data]
    ["Substance,Flammability".data, "O2,0.90".data, "H2,0.70".data] (by decide)
